import Mathlib

/-!
Verification development for the hic-matrix crate (rs-hicproj).

The Rust sources are shallowly embedded into Lean:
* machine integers (`u32`, `u64`, `usize`) are modelled as `Nat` (no arithmetic
  in the verified claims can overflow in a way the claims depend on);
* `f64` bias/weight values are modelled as `Option ℚ`, `none` standing for NaN
  (the only float facts the claims use are "NaN propagates through
  multiplication" and "is_finite filters values"); finite arithmetic is exact;
* fallible operations (hdf5 errors, index errors, `panic!`/`assert!`) are
  modelled with `Option`, `none` marking the panic / error outcome;
* `ndarray` arrays and Rust `Vec`s are modelled as `List`s; in-place writes
  (`arr[i] = v`) become `List.set` (the source panics on an out-of-range
  write, the model's `List.set` is a no-op; all theorems below are stated
  under hypotheses that keep every write of the source in range);
* the `AHashMap` accumulations are modelled by an association list
  (`insertAdd`); since the source sorts the collected entries by key and the
  keys are unique, the emitted pixel list does not depend on hash iteration
  order, so the models agree with the source;
* Rust's stable `sort_by_key` is modelled with `List.insertionSort` (also
  stable); on unique keys any stable sort produces the same list.
-/

/-- Embedding of `utils::get_vec_wrt_predicate` / `utils::get_array_wrt_predicate`
(`src/hic-matrix/src/utils.rs`): keep the elements whose predicate entry is true. -/
def get_vec_wrt_predicate {α : Type} (pred : List Bool) (xs : List α) : List α :=
  ((pred.zip xs).filter (fun p => p.1)).map (fun p => p.2)

theorem gvp_nil_left {α : Type} (xs : List α) : get_vec_wrt_predicate [] xs = [] := by
  simp [get_vec_wrt_predicate]

theorem gvp_nil_right {α : Type} (ps : List Bool) : get_vec_wrt_predicate ps ([] : List α) = [] := by
  simp [get_vec_wrt_predicate]

theorem gvp_cons {α : Type} (p : Bool) (ps : List Bool) (x : α) (xs : List α) :
    get_vec_wrt_predicate (p :: ps) (x :: xs) =
      (if p then [x] else []) ++ get_vec_wrt_predicate ps xs := by
  cases p <;> simp [get_vec_wrt_predicate, List.zip, List.filter]

theorem gvp_map_self {α : Type} (xs : List α) (q : α → Bool) :
    get_vec_wrt_predicate (xs.map q) xs = xs.filter q := by
  induction xs with
  | nil => simp [get_vec_wrt_predicate]
  | cons x t ih =>
      rw [List.map_cons, gvp_cons, ih, List.filter_cons]
      cases h : q x <;> simp [h]

theorem gvp_mem {α : Type} {a : α} {m : List Bool} {xs : List α}
    (h : a ∈ get_vec_wrt_predicate m xs) : a ∈ xs := by
  unfold get_vec_wrt_predicate at h
  obtain ⟨p, hp, rfl⟩ := List.mem_map.mp h
  exact (List.of_mem_zip (List.mem_of_mem_filter hp)).2

theorem gvp_len_congr {α β : Type} (m : List Bool) :
    ∀ (xs : List α) (ys : List β), xs.length = ys.length →
      (get_vec_wrt_predicate m xs).length = (get_vec_wrt_predicate m ys).length := by
  induction m with
  | nil => intro xs ys _; simp [gvp_nil_left]
  | cons p ps ih =>
      intro xs ys hl
      cases xs with
      | nil => cases ys with
        | nil => rfl
        | cons y yt => simp at hl
      | cons x xt => cases ys with
        | nil => simp at hl
        | cons y yt =>
            simp only [List.length_cons, Nat.succ.injEq] at hl
            rw [gvp_cons, gvp_cons, List.length_append, List.length_append, ih xt yt hl]
            cases p <;> simp

theorem gvp_pair {α β : Type} (q : α → Bool) :
    ∀ (as_ : List α) (bs : List β), as_.length = bs.length →
      (get_vec_wrt_predicate (as_.map q) as_).zip (get_vec_wrt_predicate (as_.map q) bs) =
        (as_.zip bs).filter (fun p => q p.1) := by
  intro as_
  induction as_ with
  | nil => intro bs _; simp [gvp_nil_left]
  | cons a at_ ih =>
      intro bs hl
      cases bs with
      | nil => simp at hl
      | cons b bt =>
          simp only [List.length_cons, Nat.succ.injEq] at hl
          rw [List.map_cons, gvp_cons, gvp_cons, List.zip_cons_cons, List.filter_cons]
          cases h : q a
          · simpa [h] using ih bt hl
          · simpa [h] using ih bt hl

theorem gvp_swap3 (q : Nat → Nat → Bool) :
    ∀ (as_ bs vs : List Nat), as_.length = bs.length → bs.length = vs.length →
      (get_vec_wrt_predicate ((as_.zip bs).map (fun p => q p.1 p.2)) bs).zip
        ((get_vec_wrt_predicate ((as_.zip bs).map (fun p => q p.1 p.2)) as_).zip
          (get_vec_wrt_predicate ((as_.zip bs).map (fun p => q p.1 p.2)) vs)) =
      ((as_.zip (bs.zip vs)).filter (fun e => q e.1 e.2.1)).map
        (fun e => (e.2.1, e.1, e.2.2)) := by
  intro as_
  induction as_ with
  | nil => intro bs vs _ _; simp [gvp_nil_left]
  | cons a at_ ih =>
      intro bs vs h1 h2
      cases bs with
      | nil => simp at h1
      | cons b bt =>
          cases vs with
          | nil => simp at h2
          | cons v vt =>
              simp only [List.length_cons, Nat.succ.injEq] at h1 h2
              rw [List.zip_cons_cons, List.map_cons, gvp_cons, gvp_cons, gvp_cons,
                List.zip_cons_cons, List.zip_cons_cons, List.filter_cons]
              cases h : q a b
              · simpa [h] using ih bt vt h1 h2
              · simpa [h] using ih bt vt h1 h2

theorem replicate_zip {α : Type} (r : Nat) (xs : List α) :
    (List.replicate xs.length r).zip xs = xs.map (fun x => (r, x)) := by
  induction xs with
  | nil => rfl
  | cons x t ih => simp [List.replicate_succ, ih]

/-- A stored pixel `(bin1, bin2, count)`; `reader::PixelT` in the source. -/
abbrev PixelT := Nat × Nat × Nat

/-- The per-resolution pixel store as seen by `Selector2D`
(`src/hic-matrix/src/selector.rs`): the `bin1_offset` index plus the flat
`bin2_id` / `count` pixel arrays read through `ResGrpReader`.  The two pixel
arrays of one resolution group always have the same length (they are columns
of one pixel table), recorded by `hlen`. -/
structure Store where
  nBins : Nat
  bin_offsets : List Nat
  bin2ids : List Nat
  counts : List Nat
  hlen : counts.length = bin2ids.length

/-- Contiguous slice `xs[lo..hi]` of a flat array. -/
def listSlice (xs : List Nat) (lo hi : Nat) : List Nat := (xs.drop lo).take (hi - lo)

/-- Value of the `bin1_offset` index at position `r`. -/
def Store.off (st : Store) (r : Nat) : Nat := st.bin_offsets.getD r 0

/-- The stored column ids of row `r`: slice of `bin2_id` delimited by `bin1_offset`. -/
def Store.rowBins (st : Store) (r : Nat) : List Nat :=
  listSlice st.bin2ids (st.off r) (st.off (r + 1))

/-- The stored counts of row `r`: slice of `count` delimited by `bin1_offset`. -/
def Store.rowCounts (st : Store) (r : Nat) : List Nat :=
  listSlice st.counts (st.off r) (st.off (r + 1))

theorem rowBins_length_eq (st : Store) (r : Nat) :
    (st.rowBins r).length = (st.rowCounts r).length := by
  simp [Store.rowBins, Store.rowCounts, listSlice, st.hlen]

/-- One iteration of the row loop of `Selector2D::get_triu_nnz_bins`
(`selector.rs:142-153`): slice the row, build the column-window mask, emit
`(row_id, col, count)` component-wise. -/
def triuRow (st : Store) (row j0 j1 : Nat) : List Nat × List Nat × List Nat :=
  let curBins := st.rowBins row
  let curCounts := st.rowCounts row
  let mask := curBins.map (fun x => decide (j0 ≤ x) && decide (x < j1))
  let cols := get_vec_wrt_predicate mask curBins
  (List.replicate cols.length row, cols, get_vec_wrt_predicate mask curCounts)

/-- Embedding of `Selector2D::get_triu_nnz_bins` (`selector.rs:126-157`):
returns the stored pixels with `bin1 ∈ [i0,i1)` and `bin2 ∈ [j0,j1)` as three
parallel vectors, empty when the window is degenerate.  The source reads the
pixel chunk `[bin_offsets[i0], bin_offsets[i1])` and re-indexes it relative to
its start; the model slices the flat arrays directly, which is the same data. -/
def get_triu_nnz_bins (st : Store) (i0 i1 j0 j1 : Nat) : List Nat × List Nat × List Nat :=
  if i0 ≥ i1 ∨ j0 ≥ j1 then ([], [], [])
  else
    let rows := List.range' i0 (i1 - i0)
    ((rows.map (fun r => (triuRow st r j0 j1).1)).flatten,
     (rows.map (fun r => (triuRow st r j0 j1).2.1)).flatten,
     (rows.map (fun r => (triuRow st r j0 j1).2.2)).flatten)

/-- The mirror-and-append step shared by the symmetric and the overlapping
branches of `Selector2D::get_rectangle` (`selector.rs:46-54`, `82-89`,
`100-107`): append a row/col-swapped copy of every off-diagonal entry. -/
def mirror_offdiag (t : List Nat × List Nat × List Nat) : List Nat × List Nat × List Nat :=
  let nodiags := (t.1.zip t.2.1).map (fun p => decide (p.1 ≠ p.2))
  (t.1 ++ get_vec_wrt_predicate nodiags t.2.1,
   t.2.1 ++ get_vec_wrt_predicate nodiags t.1,
   t.2.2 ++ get_vec_wrt_predicate nodiags t.2.2)

/-- `Selector2D::is_overlap` (`selector.rs:159-161`). -/
def is_overlap (i0 i1 j0 j1 : Nat) : Prop := i0 ≤ j1 ∧ j0 ≤ i1

/-- `Selector2D::is_nested` (`selector.rs:163-165`). -/
def is_nested (i0 i1 j0 j1 : Nat) : Prop := (i0 ≤ j0 ∧ j1 ≤ i1) ∨ (j0 ≤ i0 ∧ i1 ≤ j1)

/-- `Selector2D::is_coming_before` (`selector.rs:167-169`). -/
def is_coming_before (i0 i1 j0 j1 : Nat) : Prop := i0 < j0 ∧ i1 ≤ j1

instance (i0 i1 j0 j1 : Nat) : Decidable (is_overlap i0 i1 j0 j1) := by
  unfold is_overlap; infer_instance

instance (i0 i1 j0 j1 : Nat) : Decidable (is_nested i0 i1 j0 j1) := by
  unfold is_nested; infer_instance

instance (i0 i1 j0 j1 : Nat) : Decidable (is_coming_before i0 i1 j0 j1) := by
  unfold is_coming_before; infer_instance

/-- The asymmetric-window case analysis of `Selector2D::get_rectangle`
(`selector.rs:67-114`), after swap normalization.  `none` models the final
`panic!("It should not happen. ...")` branch. -/
def get_rectangle_norm (st : Store) (i0 i1 j0 j1 : Nat) :
    Option (List Nat × List Nat × List Nat) :=
  if ¬ is_overlap i0 i1 j0 j1 then
    some (get_triu_nnz_bins st i0 i1 j0 j1)
  else if is_nested i0 i1 j0 j1 then
    let x := get_triu_nnz_bins st i0 j0 j0 j1
    let y := mirror_offdiag (get_triu_nnz_bins st j0 j1 j0 j1)
    let z := get_triu_nnz_bins st j0 j1 j1 i1
    some (x.1 ++ y.1 ++ z.2.1, x.2.1 ++ y.2.1 ++ z.1, x.2.2 ++ y.2.2 ++ z.2.2)
  else if is_coming_before i0 i1 j0 j1 then
    let x := get_triu_nnz_bins st i0 j0 j0 i1
    let y := mirror_offdiag (get_triu_nnz_bins st j0 i1 j0 i1)
    let z := get_triu_nnz_bins st i0 i1 i1 j1
    some (x.1 ++ y.1 ++ z.1, x.2.1 ++ y.2.1 ++ z.2.1, x.2.2 ++ y.2.2 ++ z.2.2)
  else none

/-- Embedding of `Selector2D::get_rectangle` (`selector.rs:37-124`), also the
body of `Selector2D::get_raw_submatrix`.  The symmetric branch mirrors the
off-diagonal entries; the asymmetric branch first swaps the two ranges when
`j0 < i0 || (i0 == j0 && i1 < j1)` and transposes the answer back at the end. -/
def get_rectangle (st : Store) (i0 i1 j0 j1 : Nat) :
    Option (List Nat × List Nat × List Nat) :=
  if (i0, i1) = (j0, j1) then
    some (mirror_offdiag (get_triu_nnz_bins st i0 i1 i0 i1))
  else if j0 < i0 ∨ (i0 = j0 ∧ i1 < j1) then
    (get_rectangle_norm st j0 j1 i0 i1).map (fun t => (t.2.1, t.1, t.2.2))
  else
    get_rectangle_norm st i0 i1 j0 j1

/-- Multiplication of f64 values modelled as `Option ℚ` (`none` = NaN). -/
def fmul : Option ℚ → Option ℚ → Option ℚ
  | some a, some b => some (a * b)
  | _, _ => none

/-- Embedding of `Selector2D::get_balanced_submatrix` (`selector.rs:23-30`):
scale every raw count by the two per-bin biases, `value = count * w[b1] * w[b2]`. -/
def get_balanced_submatrix (st : Store) (biases : List (Option ℚ)) (i0 i1 j0 j1 : Nat) :
    Option (List Nat × List Nat × List (Option ℚ)) :=
  (get_rectangle st i0 i1 j0 j1).map (fun t =>
    (t.1, t.2.1,
      (t.1.zip (t.2.1.zip t.2.2)).map (fun e =>
        fmul (fmul (some ((e.2.2 : Nat) : ℚ)) (biases.getD e.1 none)) (biases.getD e.2.1 none))))

example :
    get_triu_nnz_bins
      ⟨2, [0, 2, 3], [0, 1, 1], [5, 7, 9], rfl⟩ 0 2 0 2 = ([0, 0, 1], [0, 1, 1], [5, 7, 9]) := by
  decide

example :
    get_rectangle ⟨2, [0, 2, 3], [0, 1, 1], [5, 7, 9], rfl⟩ 0 2 0 2 =
      some ([0, 0, 1, 1], [0, 1, 1, 0], [5, 7, 9, 7]) := by
  decide

theorem triu_rows_mem {st : Store} {i0 i1 j0 j1 r : Nat}
    (h : r ∈ (get_triu_nnz_bins st i0 i1 j0 j1).1) : i0 ≤ r ∧ r < i1 := by
  by_cases hc : i0 ≥ i1 ∨ j0 ≥ j1
  · simp [get_triu_nnz_bins, hc] at h
  · simp only [get_triu_nnz_bins, hc, if_false, List.mem_flatten, List.mem_map] at h
    obtain ⟨l, ⟨row, hrow, rfl⟩, hr⟩ := h
    have := List.eq_of_mem_replicate hr
    subst this
    have hb := List.mem_range'_1.mp hrow
    push_neg at hc
    omega

theorem triu_cols_mem {st : Store} {i0 i1 j0 j1 c : Nat}
    (h : c ∈ (get_triu_nnz_bins st i0 i1 j0 j1).2.1) : j0 ≤ c ∧ c < j1 := by
  by_cases hc : i0 ≥ i1 ∨ j0 ≥ j1
  · simp [get_triu_nnz_bins, hc] at h
  · simp only [get_triu_nnz_bins, hc, if_false, List.mem_flatten, List.mem_map] at h
    obtain ⟨l, ⟨row, _, rfl⟩, hcm⟩ := h
    unfold triuRow at hcm
    simp only at hcm
    rw [gvp_map_self] at hcm
    have := (List.mem_filter.mp hcm).2
    simp only [Bool.and_eq_true, decide_eq_true_eq] at this
    exact this

theorem triuRow_len_12 (st : Store) (r j0 j1 : Nat) :
    (triuRow st r j0 j1).1.length = (triuRow st r j0 j1).2.1.length := by
  simp [triuRow]

theorem triuRow_len_23 (st : Store) (r j0 j1 : Nat) :
    (triuRow st r j0 j1).2.1.length = (triuRow st r j0 j1).2.2.length := by
  unfold triuRow
  simp only
  exact gvp_len_congr _ _ _ (rowBins_length_eq st r)

theorem triu_len_12 (st : Store) (i0 i1 j0 j1 : Nat) :
    (get_triu_nnz_bins st i0 i1 j0 j1).1.length = (get_triu_nnz_bins st i0 i1 j0 j1).2.1.length := by
  by_cases hc : i0 ≥ i1 ∨ j0 ≥ j1
  · simp [get_triu_nnz_bins, hc]
  · simp only [get_triu_nnz_bins, hc, if_false, List.length_flatten, List.map_map]
    congr 1
    exact List.map_congr_left (fun r _ => triuRow_len_12 st r j0 j1)

theorem triu_len_23 (st : Store) (i0 i1 j0 j1 : Nat) :
    (get_triu_nnz_bins st i0 i1 j0 j1).2.1.length = (get_triu_nnz_bins st i0 i1 j0 j1).2.2.length := by
  by_cases hc : i0 ≥ i1 ∨ j0 ≥ j1
  · simp [get_triu_nnz_bins, hc]
  · simp only [get_triu_nnz_bins, hc, if_false, List.length_flatten, List.map_map]
    congr 1
    exact List.map_congr_left (fun r _ => triuRow_len_23 st r j0 j1)

theorem mirror_mem_fst {t : List Nat × List Nat × List Nat} {a : Nat}
    (h : a ∈ (mirror_offdiag t).1) : a ∈ t.1 ∨ a ∈ t.2.1 := by
  unfold mirror_offdiag at h
  simp only at h
  rcases List.mem_append.mp h with h' | h'
  · exact Or.inl h'
  · exact Or.inr (gvp_mem h')

theorem mirror_mem_snd {t : List Nat × List Nat × List Nat} {a : Nat}
    (h : a ∈ (mirror_offdiag t).2.1) : a ∈ t.1 ∨ a ∈ t.2.1 := by
  unfold mirror_offdiag at h
  simp only at h
  rcases List.mem_append.mp h with h' | h'
  · exact Or.inr h'
  · exact Or.inl (gvp_mem h')

theorem mirror_len_12 {t : List Nat × List Nat × List Nat}
    (h1 : t.1.length = t.2.1.length) :
    (mirror_offdiag t).1.length = (mirror_offdiag t).2.1.length := by
  unfold mirror_offdiag
  simp only [List.length_append, h1]
  congr 1
  exact gvp_len_congr _ _ _ h1.symm

theorem mirror_len_23 {t : List Nat × List Nat × List Nat}
    (h1 : t.1.length = t.2.1.length) (h2 : t.2.1.length = t.2.2.length) :
    (mirror_offdiag t).2.1.length = (mirror_offdiag t).2.2.length := by
  unfold mirror_offdiag
  simp only [List.length_append, h2]
  congr 1
  exact gvp_len_congr _ _ _ (h1.trans h2)

theorem norm_rect_bounds {st : Store} {i0 i1 j0 j1 : Nat}
    {t : List Nat × List Nat × List Nat}
    (hs1 : i0 ≤ j0) (hs2 : i0 = j0 → j1 ≤ i1)
    (h : get_rectangle_norm st i0 i1 j0 j1 = some t) :
    (∀ r ∈ t.1, i0 ≤ r ∧ r < i1) ∧ (∀ c ∈ t.2.1, j0 ≤ c ∧ c < j1) ∧
      t.1.length = t.2.1.length ∧ t.2.1.length = t.2.2.length := by
  rw [get_rectangle_norm] at h
  by_cases hov : is_overlap i0 i1 j0 j1
  · rw [if_neg (not_not_intro hov)] at h
    obtain ⟨hov1, hov2⟩ := hov
    by_cases hn : is_nested i0 i1 j0 j1
    · -- nested
      rw [if_pos hn] at h
      simp only [Option.some.injEq] at h
      subst h
      refine ⟨?_, ?_, ?_, ?_⟩
      · intro r hr
        simp only [List.mem_append] at hr
        rcases hr with (hr | hr) | hr
        · have := triu_rows_mem hr; omega
        · rcases mirror_mem_fst hr with h' | h'
          · have := triu_rows_mem h'
            rcases Nat.eq_or_lt_of_le hs1 with he | hlt
            · have := hs2 he; omega
            · rcases hn with hn | hn <;> omega
          · have := triu_cols_mem h'
            rcases Nat.eq_or_lt_of_le hs1 with he | hlt
            · have := hs2 he; omega
            · rcases hn with hn | hn <;> omega
        · have := triu_cols_mem hr; omega
      · intro c hc
        simp only [List.mem_append] at hc
        rcases hc with (hc | hc) | hc
        · exact triu_cols_mem hc
        · rcases mirror_mem_snd hc with h' | h'
          · exact triu_rows_mem h'
          · exact triu_cols_mem h'
        · exact triu_rows_mem hc
      · simp only [List.length_append]
        rw [triu_len_12 st i0 j0 j0 j1,
          mirror_len_12 (triu_len_12 st j0 j1 j0 j1),
          triu_len_12 st j0 j1 j1 i1]
      · simp only [List.length_append]
        rw [triu_len_23 st i0 j0 j0 j1,
          mirror_len_23 (triu_len_12 st j0 j1 j0 j1) (triu_len_23 st j0 j1 j0 j1),
          triu_len_12 st j0 j1 j1 i1, triu_len_23 st j0 j1 j1 i1]
    · rw [if_neg hn] at h
      by_cases hcb : is_coming_before i0 i1 j0 j1
      · -- coming before
        rw [if_pos hcb] at h
        obtain ⟨hcb1, hcb2⟩ := hcb
        simp only [Option.some.injEq] at h
        subst h
        refine ⟨?_, ?_, ?_, ?_⟩
        · intro r hr
          simp only [List.mem_append] at hr
          rcases hr with (hr | hr) | hr
          · have := triu_rows_mem hr; omega
          · rcases mirror_mem_fst hr with h' | h'
            · have := triu_rows_mem h'; omega
            · have := triu_cols_mem h'; omega
          · exact triu_rows_mem hr
        · intro c hc
          simp only [List.mem_append] at hc
          rcases hc with (hc | hc) | hc
          · have := triu_cols_mem hc; omega
          · rcases mirror_mem_snd hc with h' | h'
            · have := triu_rows_mem h'; omega
            · have := triu_cols_mem h'; omega
          · have := triu_cols_mem hc; omega
        · simp only [List.length_append]
          rw [triu_len_12 st i0 j0 j0 i1,
            mirror_len_12 (triu_len_12 st j0 i1 j0 i1),
            triu_len_12 st i0 i1 i1 j1]
        · simp only [List.length_append]
          rw [triu_len_23 st i0 j0 j0 i1,
            mirror_len_23 (triu_len_12 st j0 i1 j0 i1) (triu_len_23 st j0 i1 j0 i1),
            triu_len_23 st i0 i1 i1 j1]
      · rw [if_neg hcb] at h
        exact absurd h (by simp)
  · -- non-overlapping
    rw [if_pos hov] at h
    simp only [Option.some.injEq] at h
    subst h
    exact ⟨fun r hr => triu_rows_mem hr, fun c hc => triu_cols_mem hc,
      triu_len_12 st i0 i1 j0 j1, triu_len_23 st i0 i1 j0 j1⟩

theorem rect_bounds {st : Store} {i0 i1 j0 j1 : Nat}
    {t : List Nat × List Nat × List Nat}
    (h : get_rectangle st i0 i1 j0 j1 = some t) :
    (∀ r ∈ t.1, i0 ≤ r ∧ r < i1) ∧ (∀ c ∈ t.2.1, j0 ≤ c ∧ c < j1) ∧
      t.1.length = t.2.1.length ∧ t.2.1.length = t.2.2.length := by
  unfold get_rectangle at h
  split_ifs at h with hsym hswap
  · rw [Prod.mk.injEq] at hsym
    obtain ⟨h0, h1⟩ := hsym
    subst h0; subst h1
    rw [Option.some.injEq] at h
    subst h
    refine ⟨?_, ?_, mirror_len_12 (triu_len_12 st i0 i1 i0 i1),
      mirror_len_23 (triu_len_12 st i0 i1 i0 i1) (triu_len_23 st i0 i1 i0 i1)⟩
    · intro r hr
      rcases mirror_mem_fst hr with h' | h'
      · exact triu_rows_mem h'
      · exact triu_cols_mem h'
    · intro c hc
      rcases mirror_mem_snd hc with h' | h'
      · exact triu_rows_mem h'
      · exact triu_cols_mem h'
  · rw [Option.map_eq_some'] at h
    obtain ⟨u, hu, rfl⟩ := h
    have hs1 : j0 ≤ i0 := by
      rcases hswap with h' | h' <;> omega
    have hs2 : j0 = i0 → i1 ≤ j1 := by
      intro he
      rcases hswap with h' | h' <;> omega
    obtain ⟨hr, hc, hl1, hl2⟩ := norm_rect_bounds hs1 hs2 hu
    exact ⟨hc, hr, hl1.symm, hl1.trans hl2⟩
  · push_neg at hswap
    exact norm_rect_bounds hswap.1 hswap.2 h

/-- A small concrete store used by witnesses: 2 bins, pixels
`(0,0,5), (0,1,7), (1,1,9)` (row 0 occupies positions 0..2, row 1 position 2). -/
def st0 : Store := ⟨2, [0, 2, 3], [0, 1, 1], [5, 7, 9], rfl⟩

/-- C1: every triple returned by `Selector2D::get_rectangle` (hence by
`get_raw_submatrix`, which is a direct call, and `get_balanced_submatrix`,
which only rescales the value vector) satisfies `row ∈ [i0,i1)` and
`col ∈ [j0,j1)` with respect to the caller's original, non-swapped window, and
the row, column and value vectors have equal lengths. -/
theorem selector_window_postconditions (st : Store) (i0 i1 j0 j1 : Nat) :
    (∀ t, get_rectangle st i0 i1 j0 j1 = some t →
      (∀ r ∈ t.1, i0 ≤ r ∧ r < i1) ∧ (∀ c ∈ t.2.1, j0 ≤ c ∧ c < j1) ∧
        t.1.length = t.2.1.length ∧ t.2.1.length = t.2.2.length) ∧
    (∀ (w : List (Option ℚ)) tb, get_balanced_submatrix st w i0 i1 j0 j1 = some tb →
      (∀ r ∈ tb.1, i0 ≤ r ∧ r < i1) ∧ (∀ c ∈ tb.2.1, j0 ≤ c ∧ c < j1) ∧
        tb.1.length = tb.2.1.length ∧ tb.2.1.length = tb.2.2.length) := by
  constructor
  · intro t h
    exact rect_bounds h
  · intro w tb h
    rw [get_balanced_submatrix, Option.map_eq_some'] at h
    obtain ⟨u, hu, rfl⟩ := h
    obtain ⟨hr, hc, hl1, hl2⟩ := rect_bounds hu
    refine ⟨hr, hc, hl1, ?_⟩
    simp only [List.length_map, List.length_zip, ← hl1, ← hl2]
    omega

theorem selector_window_postconditions_witness :
    ([0, 0, 1, 1] : List Nat).length = ([0, 1, 1, 0] : List Nat).length ∧
    ([0, 1, 1, 0] : List Nat).length = ([5, 7, 9, 7] : List Nat).length :=
  ((selector_window_postconditions st0 0 2 0 2).1 ([0, 0, 1, 1], [0, 1, 1, 0], [5, 7, 9, 7])
    (by decide)).2.2

theorem norm_total (st : Store) (a0 a1 b0 b1 : Nat)
    (_hb : b0 < b1) (hs1 : a0 ≤ b0) (hs2 : a0 = b0 → b1 ≤ a1) :
    (get_rectangle_norm st a0 a1 b0 b1).isSome := by
  by_cases hov : is_overlap a0 a1 b0 b1
  · rw [get_rectangle_norm, if_neg (not_not_intro hov)]
    by_cases hn : is_nested a0 a1 b0 b1
    · rw [if_pos hn]; simp
    · rw [if_neg hn]
      by_cases hcb : is_coming_before a0 a1 b0 b1
      · rw [if_pos hcb]; simp
      · exfalso
        unfold is_overlap at hov
        unfold is_nested at hn
        unfold is_coming_before at hcb
        rcases Nat.eq_or_lt_of_le hs1 with he | hlt
        · have := hs2 he; omega
        · omega
  · rw [get_rectangle_norm, if_pos hov]; simp

/-- C3: after the swap normalization of an asymmetric window, every pair of
non-empty ranges falls into one of the three handled cases, so the final
`panic!` branch of `Selector2D::get_rectangle` (modelled by `none`) is
unreachable for every valid window: `get_rectangle` returns a result. -/
theorem rectangle_case_split_total (st : Store) (i0 i1 j0 j1 : Nat)
    (h1 : i0 < i1) (h2 : j0 < j1) : (get_rectangle st i0 i1 j0 j1).isSome := by
  rw [get_rectangle]
  by_cases hsym : ((i0, i1) : Nat × Nat) = (j0, j1)
  · rw [if_pos hsym]; simp
  · rw [if_neg hsym]
    by_cases hswap : j0 < i0 ∨ (i0 = j0 ∧ i1 < j1)
    · rw [if_pos hswap]
      have hs1 : j0 ≤ i0 := by rcases hswap with h' | h' <;> omega
      have hs2 : j0 = i0 → i1 ≤ j1 := by
        intro he
        rcases hswap with h' | h' <;> omega
      have h' := norm_total st j0 j1 i0 i1 h1 hs1 hs2
      cases hu : get_rectangle_norm st j0 j1 i0 i1 with
      | none => rw [hu] at h'; simp at h'
      | some u => rfl
    · rw [if_neg hswap]
      push_neg at hswap
      exact norm_total st i0 i1 j0 j1 h2 hswap.1 hswap.2

theorem rectangle_case_split_total_witness :
    ((0 : Nat) < 2 ∧ (1 : Nat) < 3) ∧ (get_rectangle st0 0 2 1 3).isSome :=
  ⟨⟨by decide, by decide⟩, rectangle_case_split_total st0 0 2 1 3 (by decide) (by decide)⟩

/-- The triple of parallel result vectors viewed as one list of
`(row, col, value)` entries. -/
def entriesOf (t : List Nat × List Nat × List Nat) : List PixelT :=
  t.1.zip (t.2.1.zip t.2.2)

/-- The entry list produced by one row of `get_triu_nnz_bins`. -/
def rowEntries (st : Store) (r j0 j1 : Nat) : List PixelT :=
  (((st.rowBins r).zip (st.rowCounts r)).filter
      (fun p => decide (j0 ≤ p.1) && decide (p.1 < j1))).map (fun p => (r, p.1, p.2))

theorem entries_row_aux (r : Nat) (q : Nat → Bool) :
    ∀ (as_ bs : List Nat), as_.length = bs.length →
      (List.replicate (get_vec_wrt_predicate (as_.map q) as_).length r).zip
        ((get_vec_wrt_predicate (as_.map q) as_).zip (get_vec_wrt_predicate (as_.map q) bs)) =
      ((as_.zip bs).filter (fun p => q p.1)).map (fun p => (r, p.1, p.2)) := by
  intro as_
  induction as_ with
  | nil => intro bs _; simp [gvp_nil_left]
  | cons a at_ ih =>
      intro bs hl
      cases bs with
      | nil => simp at hl
      | cons b bt =>
          simp only [List.length_cons, Nat.succ.injEq] at hl
          rw [List.map_cons, gvp_cons, gvp_cons, List.zip_cons_cons, List.filter_cons]
          cases h : q a
          · simpa [h] using ih bt hl
          · simp only [h, if_true, List.singleton_append, List.length_cons,
              List.replicate_succ, List.zip_cons_cons, List.map_cons]
            rw [ih bt hl]

theorem entries_triuRow (st : Store) (r j0 j1 : Nat) :
    entriesOf (triuRow st r j0 j1) = rowEntries st r j0 j1 := by
  unfold entriesOf triuRow rowEntries
  simp only
  exact entries_row_aux r _ _ _ (rowBins_length_eq st r)

theorem entries_flatten (rows : List Nat) (f : Nat → List Nat × List Nat × List Nat)
    (hf : ∀ r ∈ rows, (f r).1.length = (f r).2.1.length ∧ (f r).2.1.length = (f r).2.2.length) :
    entriesOf ((rows.map (fun r => (f r).1)).flatten,
               (rows.map (fun r => (f r).2.1)).flatten,
               (rows.map (fun r => (f r).2.2)).flatten) =
      (rows.map (fun r => entriesOf (f r))).flatten := by
  induction rows with
  | nil => rfl
  | cons r rest ih =>
      simp only [List.map_cons, List.flatten_cons]
      unfold entriesOf
      simp only
      have h1 := (hf r (List.mem_cons_self r rest)).1
      have h2 := (hf r (List.mem_cons_self r rest)).2
      rw [List.zip_append h2, List.zip_append (by rw [List.length_zip, ← h2, Nat.min_self, h1])]
      rw [show ((rest.map (fun r => (f r).2.1)).flatten.zip (rest.map (fun r => (f r).2.2)).flatten) =
            ((rest.map (fun r => (f r).2.1)).flatten.zip (rest.map (fun r => (f r).2.2)).flatten) from rfl]
      have ih' := ih (fun r hr => hf r (List.mem_cons_of_mem _ hr))
      unfold entriesOf at ih'
      simp only at ih'
      rw [ih']

theorem entries_triu (st : Store) (i0 i1 j0 j1 : Nat) :
    entriesOf (get_triu_nnz_bins st i0 i1 j0 j1) =
      if i0 ≥ i1 ∨ j0 ≥ j1 then []
      else ((List.range' i0 (i1 - i0)).map (fun r => rowEntries st r j0 j1)).flatten := by
  by_cases hc : i0 ≥ i1 ∨ j0 ≥ j1
  · simp [get_triu_nnz_bins, hc, entriesOf]
  · rw [if_neg hc]
    simp only [get_triu_nnz_bins, hc, if_false]
    rw [entries_flatten _ (fun r => triuRow st r j0 j1)
      (fun r _ => ⟨triuRow_len_12 st r j0 j1, triuRow_len_23 st r j0 j1⟩)]
    congr 1
    exact List.map_congr_left (fun r _ => entries_triuRow st r j0 j1)

theorem rowEntries_mem {st : Store} {r j0 j1 : Nat} {e : PixelT}
    (h : e ∈ rowEntries st r j0 j1) :
    e.1 = r ∧ j0 ≤ e.2.1 ∧ e.2.1 < j1 ∧ e.2.1 ∈ st.rowBins r := by
  unfold rowEntries at h
  obtain ⟨p, hp, rfl⟩ := List.mem_map.mp h
  have hz := List.mem_filter.mp hp
  have hcol : p.1 ∈ st.rowBins r := (List.of_mem_zip hz.1).1
  have hb := hz.2
  simp only [Bool.and_eq_true, decide_eq_true_eq] at hb
  exact ⟨rfl, hb.1, hb.2, hcol⟩

/-- Well-formedness of a store, as established by the builders (claim C7 /
spec §3): within each row the stored column ids are strictly increasing (the
pixels are sorted by `(bin1, bin2)` with no duplicates) and at least the row
id (only the upper triangle is stored). -/
def Store.WF (st : Store) : Prop :=
  ∀ r, r < st.nBins → (st.rowBins r).Pairwise (· < ·) ∧ ∀ c ∈ st.rowBins r, r ≤ c

/-- Number of entries at matrix position `(a, b)` in an entry list. -/
def countKey (a b : Nat) (l : List PixelT) : Nat :=
  l.countP (fun e => decide (e.1 = a) && decide (e.2.1 = b))

theorem countP_and_le {α : Type} (p q : α → Bool) (l : List α) :
    List.countP (fun a => p a && q a) l ≤ List.countP p l := by
  induction l with
  | nil => simp
  | cons x t ih =>
      rw [List.countP_cons, List.countP_cons]
      cases hp : p x <;> cases hq : q x <;> simp [hp, hq] <;> omega

theorem sum_map_indicator (l : List Nat) (a : Nat) :
    (l.map (fun r => if r = a then (1 : Nat) else 0)).sum = l.count a := by
  induction l with
  | nil => rfl
  | cons x t ih =>
      by_cases h : x = a <;> simp [h, ih, List.count_cons] <;> omega

theorem mem_entries_triu {st : Store} {i0 i1 j0 j1 : Nat} {e : PixelT}
    (h : e ∈ entriesOf (get_triu_nnz_bins st i0 i1 j0 j1)) :
    i0 ≤ e.1 ∧ e.1 < i1 ∧ j0 ≤ e.2.1 ∧ e.2.1 < j1 ∧ e.2.1 ∈ st.rowBins e.1 := by
  rw [entries_triu] at h
  by_cases hc : i0 ≥ i1 ∨ j0 ≥ j1
  · rw [if_pos hc] at h; simp at h
  · rw [if_neg hc] at h
    rw [List.mem_flatten] at h
    obtain ⟨l, hl, he⟩ := h
    obtain ⟨r, hr, rfl⟩ := List.mem_map.mp hl
    obtain ⟨h1, h2, h3, h4⟩ := rowEntries_mem he
    have hb := List.mem_range'_1.mp hr
    push_neg at hc
    subst h1
    exact ⟨by omega, by omega, h2, h3, h4⟩

theorem triu_triangular {st : Store} {i0 i1 j0 j1 : Nat} {e : PixelT}
    (hwf : Store.WF st) (hi : i1 ≤ st.nBins)
    (h : e ∈ entriesOf (get_triu_nnz_bins st i0 i1 j0 j1)) : e.1 ≤ e.2.1 := by
  obtain ⟨_, h2, _, _, h5⟩ := mem_entries_triu h
  exact (hwf e.1 (by omega)).2 e.2.1 h5

theorem countKey_pos_of_mem {a b : Nat} {l : List PixelT} {e : PixelT}
    (he : e ∈ l) (h1 : e.1 = a) (h2 : e.2.1 = b) : 1 ≤ countKey a b l := by
  unfold countKey
  have := List.countP_pos (l := l)
    (p := fun e => decide (e.1 = a) && decide (e.2.1 = b))
  exact this.mpr ⟨e, he, by simp [h1, h2]⟩

theorem countKey_row_le_one (st : Store) (r j0 j1 a b : Nat)
    (hnd : (st.rowBins r).Pairwise (· < ·)) :
    countKey a b (rowEntries st r j0 j1) ≤ 1 := by
  unfold countKey rowEntries
  rw [List.countP_map]
  by_cases ha : r = a
  · subst ha
    have hstep1 : List.countP
        ((fun e : PixelT => decide (e.1 = r) && decide (e.2.1 = b)) ∘ fun p : Nat × Nat => (r, p.1, p.2))
        (((st.rowBins r).zip (st.rowCounts r)).filter
          (fun p => decide (j0 ≤ p.1) && decide (p.1 < j1))) ≤
        List.countP (fun p : Nat × Nat => decide (p.1 = b)) ((st.rowBins r).zip (st.rowCounts r)) := by
      rw [List.countP_filter]
      have hcongr : List.countP (fun x : Nat × Nat =>
          ((fun e : PixelT => decide (e.1 = r) && decide (e.2.1 = b)) ∘
            fun p : Nat × Nat => (r, p.1, p.2)) x &&
              (decide (j0 ≤ x.1) && decide (x.1 < j1)))
            ((st.rowBins r).zip (st.rowCounts r)) =
          List.countP (fun x : Nat × Nat =>
            decide (x.1 = b) && (decide (j0 ≤ x.1) && decide (x.1 < j1)))
            ((st.rowBins r).zip (st.rowCounts r)) :=
        List.countP_congr (by intro x _; simp)
      rw [hcongr]
      exact countP_and_le (fun x : Nat × Nat => decide (x.1 = b)) _ _
    refine le_trans hstep1 ?_
    rw [show (fun p : Nat × Nat => decide (p.1 = b)) =
          ((fun x => decide (x = b)) ∘ Prod.fst) from rfl]
    rw [← List.countP_map]
    rw [List.map_fst_zip _ _ (le_of_eq (rowBins_length_eq st r))]
    have hcount : List.countP (fun x => decide (x = b)) (st.rowBins r) = (st.rowBins r).count b := by
      rw [List.count_eq_countP]
      exact List.countP_congr (by intro x _; simp)
    rw [hcount]
    have hnodup : (st.rowBins r).Nodup := hnd.imp (fun h => Nat.ne_of_lt h)
    exact List.nodup_iff_count_le_one.mp hnodup b
  · have : List.countP
        ((fun e : PixelT => decide (e.1 = a) && decide (e.2.1 = b)) ∘ fun p : Nat × Nat => (r, p.1, p.2))
        (((st.rowBins r).zip (st.rowCounts r)).filter
          (fun p => decide (j0 ≤ p.1) && decide (p.1 < j1))) = 0 := by
      rw [List.countP_eq_zero]
      intro x _
      simp [ha]
    omega

theorem countKey_triu_le_one (st : Store) (i0 i1 j0 j1 a b : Nat)
    (hwf : Store.WF st) (hi : i1 ≤ st.nBins) :
    countKey a b (entriesOf (get_triu_nnz_bins st i0 i1 j0 j1)) ≤ 1 := by
  rw [entries_triu]
  by_cases hc : i0 ≥ i1 ∨ j0 ≥ j1
  · simp [hc, countKey]
  · rw [if_neg hc]
    unfold countKey
    rw [List.countP_flatten, List.map_map]
    push_neg at hc
    have hstep : ((List.range' i0 (i1 - i0)).map
          ((List.countP fun e : PixelT => decide (e.1 = a) && decide (e.2.1 = b)) ∘
            fun r => rowEntries st r j0 j1)).sum ≤
        ((List.range' i0 (i1 - i0)).map (fun r => if r = a then (1 : Nat) else 0)).sum := by
      apply List.sum_le_sum
      intro r hr
      have hb := List.mem_range'_1.mp hr
      by_cases hra : r = a
      · subst hra
        simp only [if_pos rfl, Function.comp]
        exact countKey_row_le_one st r j0 j1 r b (hwf r (by omega)).1
      · simp only [if_neg hra, Function.comp]
        have : List.countP (fun e : PixelT => decide (e.1 = a) && decide (e.2.1 = b))
            (rowEntries st r j0 j1) = 0 := by
          rw [List.countP_eq_zero]
          intro e he
          have := (rowEntries_mem he).1
          simp [this, hra]
        omega
    refine le_trans hstep ?_
    rw [sum_map_indicator]
    exact List.nodup_iff_count_le_one.mp (List.nodup_range' i0 (i1 - i0)) a

theorem entries_mirror (t : List Nat × List Nat × List Nat)
    (h1 : t.1.length = t.2.1.length) (h2 : t.2.1.length = t.2.2.length) :
    entriesOf (mirror_offdiag t) =
      entriesOf t ++
        ((entriesOf t).filter (fun e => decide (e.1 ≠ e.2.1))).map
          (fun e => (e.2.1, e.1, e.2.2)) := by
  unfold mirror_offdiag entriesOf
  simp only
  rw [List.zip_append h2,
    List.zip_append (by rw [List.length_zip, ← h2, Nat.min_self, h1])]
  congr 1
  exact gvp_swap3 (fun a b => decide (a ≠ b)) t.1 t.2.1 t.2.2 h1 h2

/-- C2: for a symmetric window query `(i0,i1)×(i0,i1)` on a well-formed store,
`Selector2D::get_rectangle` returns the stored upper-triangular entries of the
block plus a row/col-swapped copy of exactly the off-diagonal entries (no
mirrored diagonal); consequently each stored off-diagonal pixel `(r,c)`
appears exactly once as `(r,c)` and exactly once as `(c,r)` with the same
value, each diagonal pixel appears exactly once, and for every returned entry
`(a,b,v)` the swapped entry `(b,a,v)` is also returned. -/
theorem symmetric_window_mirror (st : Store) (i0 i1 : Nat)
    (hwf : Store.WF st) (hi : i1 ≤ st.nBins) :
    ∀ t, get_rectangle st i0 i1 i0 i1 = some t →
      (entriesOf t =
        entriesOf (get_triu_nnz_bins st i0 i1 i0 i1) ++
          ((entriesOf (get_triu_nnz_bins st i0 i1 i0 i1)).filter
              (fun e => decide (e.1 ≠ e.2.1))).map (fun e => (e.2.1, e.1, e.2.2))) ∧
      (∀ e ∈ entriesOf (get_triu_nnz_bins st i0 i1 i0 i1),
        (e.1 ≠ e.2.1 →
          countKey e.1 e.2.1 (entriesOf t) = 1 ∧
          countKey e.2.1 e.1 (entriesOf t) = 1 ∧
          (e.2.1, e.1, e.2.2) ∈ entriesOf t) ∧
        (e.1 = e.2.1 → countKey e.1 e.2.1 (entriesOf t) = 1)) ∧
      (∀ e ∈ entriesOf t, (e.2.1, e.1, e.2.2) ∈ entriesOf t) := by
  intro t ht
  rw [get_rectangle, if_pos rfl, Option.some.injEq] at ht
  subst ht
  have hl1 := triu_len_12 st i0 i1 i0 i1
  have hl2 := triu_len_23 st i0 i1 i0 i1
  have hmirror := entries_mirror (get_triu_nnz_bins st i0 i1 i0 i1) hl1 hl2
  set T := entriesOf (get_triu_nnz_bins st i0 i1 i0 i1) with hT
  set M := (T.filter (fun e => decide (e.1 ≠ e.2.1))).map (fun e => (e.2.1, e.1, e.2.2)) with hM
  have htri : ∀ e ∈ T, e.1 ≤ e.2.1 := fun e he => triu_triangular hwf hi he
  have hMstrict : ∀ m ∈ M, m.2.1 < m.1 := by
    intro m hm
    rw [hM] at hm
    obtain ⟨e', he', rfl⟩ := List.mem_map.mp hm
    have hmem := List.mem_filter.mp he'
    have hne : e'.1 ≠ e'.2.1 := by simpa using hmem.2
    have := htri e' hmem.1
    simp only
    omega
  refine ⟨hmirror, ?_, ?_⟩
  · intro e he
    have hcT1 : countKey e.1 e.2.1 T = 1 := by
      have hle := countKey_triu_le_one st i0 i1 i0 i1 e.1 e.2.1 hwf hi
      rw [← hT] at hle
      have hge := countKey_pos_of_mem he rfl rfl
      omega
    constructor
    · intro hne
      have hlt : e.1 < e.2.1 := lt_of_le_of_ne (htri e he) hne
      refine ⟨?_, ?_, ?_⟩
      · -- (r, c) appears once: once in T, never in M
        rw [hmirror, countKey, List.countP_append, ← countKey, ← countKey, hcT1]
        have hM0 : countKey e.1 e.2.1 M = 0 := by
          unfold countKey
          rw [List.countP_eq_zero]
          intro m hm
          have := hMstrict m hm
          simp only [Bool.and_eq_true, decide_eq_true_eq, not_and]
          intro h1 h2
          omega
        omega
      · -- (c, r) appears once: never in T, once in M
        rw [hmirror, countKey, List.countP_append, ← countKey, ← countKey]
        have hT0 : countKey e.2.1 e.1 T = 0 := by
          unfold countKey
          rw [List.countP_eq_zero]
          intro f hf
          have := htri f hf
          simp only [Bool.and_eq_true, decide_eq_true_eq, not_and]
          intro h1 h2
          omega
        have hM1 : countKey e.2.1 e.1 M = 1 := by
          unfold countKey
          rw [hM, List.countP_map, List.countP_filter]
          have hcongr : List.countP (fun f : PixelT =>
              ((fun m : PixelT => decide (m.1 = e.2.1) && decide (m.2.1 = e.1)) ∘
                fun f : PixelT => (f.2.1, f.1, f.2.2)) f && decide (f.1 ≠ f.2.1)) T =
              List.countP (fun f : PixelT =>
                (decide (f.1 = e.1) && decide (f.2.1 = e.2.1)) && decide (f.1 ≠ f.2.1)) T := by
            apply List.countP_congr
            intro f _
            simp only [Function.comp, Bool.and_eq_true, decide_eq_true_eq]
            constructor
            · rintro ⟨⟨ha, hb⟩, hc⟩
              exact ⟨⟨hb, ha⟩, hc⟩
            · rintro ⟨⟨ha, hb⟩, hc⟩
              exact ⟨⟨hb, ha⟩, hc⟩
          rw [hcongr]
          have hle : List.countP (fun f : PixelT =>
              (decide (f.1 = e.1) && decide (f.2.1 = e.2.1)) && decide (f.1 ≠ f.2.1)) T ≤
              countKey e.1 e.2.1 T :=
            countP_and_le (fun f : PixelT => decide (f.1 = e.1) && decide (f.2.1 = e.2.1)) _ T
          have hge : 1 ≤ List.countP (fun f : PixelT =>
              (decide (f.1 = e.1) && decide (f.2.1 = e.2.1)) && decide (f.1 ≠ f.2.1)) T :=
            List.countP_pos.mpr ⟨e, he, by simp [hne]⟩
          rw [hcT1] at hle
          omega
        omega
      · -- the mirrored entry is present with the same value
        rw [hmirror]
        apply List.mem_append_right
        rw [hM]
        apply List.mem_map.mpr
        exact ⟨e, List.mem_filter.mpr ⟨he, by simp [hne]⟩, rfl⟩
    · intro hdiag
      rw [hmirror, countKey, List.countP_append, ← countKey, ← countKey, hcT1]
      have hM0 : countKey e.1 e.2.1 M = 0 := by
        unfold countKey
        rw [List.countP_eq_zero]
        intro m hm
        have := hMstrict m hm
        simp only [Bool.and_eq_true, decide_eq_true_eq, not_and]
        intro h1 h2
        omega
      omega
  · intro f hf
    obtain ⟨a, b, v⟩ := f
    rw [hmirror] at hf ⊢
    rcases List.mem_append.mp hf with hfT | hfM
    · by_cases hdiag : a = b
      · apply List.mem_append_left
        subst hdiag
        exact hfT
      · apply List.mem_append_right
        rw [hM]
        exact List.mem_map.mpr ⟨(a, b, v), List.mem_filter.mpr ⟨hfT, by simp [hdiag]⟩, rfl⟩
    · apply List.mem_append_left
      rw [hM] at hfM
      obtain ⟨e', he', heq⟩ := List.mem_map.mp hfM
      obtain ⟨ra, rb, rv⟩ := e'
      simp only [Prod.mk.injEq] at heq
      obtain ⟨h1, h2, h3⟩ := heq
      subst h1
      subst h2
      subst h3
      exact (List.mem_filter.mp he').1

theorem symmetric_window_mirror_witness :
    entriesOf (([0, 0, 1, 1], [0, 1, 1, 0], [5, 7, 9, 7]) : List Nat × List Nat × List Nat) =
      entriesOf (get_triu_nnz_bins st0 0 2 0 2) ++
        ((entriesOf (get_triu_nnz_bins st0 0 2 0 2)).filter
            (fun e => decide (e.1 ≠ e.2.1))).map (fun e => (e.2.1, e.1, e.2.2)) :=
  ((symmetric_window_mirror st0 0 2 (by unfold Store.WF; decide) (by decide))
    ([0, 0, 1, 1], [0, 1, 1, 0], [5, 7, 9, 7]) (by decide)).1

/-- Association-list model of the `AHashMap<(u32,u32),u32>` accumulation used
by both builders (`pair_builder.rs:69`, `zoom_builder.rs:69-70`): add `c` onto
the entry of key `k`, inserting it if absent. -/
def insertAdd (m : List ((Nat × Nat) × Nat)) (k : Nat × Nat) (c : Nat) :
    List ((Nat × Nat) × Nat) :=
  match m with
  | [] => [(k, c)]
  | (k', c') :: rest => if k' = k then (k', c' + c) :: rest else (k', c') :: insertAdd rest k c

theorem insertAdd_keys {m : List ((Nat × Nat) × Nat)} {k : Nat × Nat} {c : Nat} :
    ∀ k' ∈ (insertAdd m k c).map Prod.fst, k' ∈ m.map Prod.fst ∨ k' = k := by
  induction m with
  | nil => intro k' h; simp [insertAdd] at h; exact Or.inr h
  | cons kc rest ih =>
      intro k' h
      rw [insertAdd] at h
      by_cases he : kc.1 = k
      · rw [if_pos he] at h
        simp only [List.map_cons, List.mem_cons] at h
        rcases h with h | h
        · exact Or.inl (by simp [h])
        · exact Or.inl (by simp [h])
      · rw [if_neg he] at h
        simp only [List.map_cons, List.mem_cons] at h
        rcases h with h | h
        · exact Or.inl (by simp [h])
        · rcases ih k' h with h' | h'
          · exact Or.inl (by simp; exact Or.inr (by simpa using h'))
          · exact Or.inr h'

theorem insertAdd_nodup {m : List ((Nat × Nat) × Nat)} {k : Nat × Nat} {c : Nat}
    (h : (m.map Prod.fst).Nodup) : ((insertAdd m k c).map Prod.fst).Nodup := by
  induction m with
  | nil => simp [insertAdd]
  | cons kc rest ih =>
      rw [insertAdd]
      by_cases he : kc.1 = k
      · rw [if_pos he]
        simpa using h
      · rw [if_neg he]
        simp only [List.map_cons, List.nodup_cons] at h ⊢
        refine ⟨?_, ih h.2⟩
        intro hmem
        rcases insertAdd_keys kc.1 hmem with h' | h'
        · exact h.1 h'
        · exact he h'

theorem insertAdd_vals_sum (m : List ((Nat × Nat) × Nat)) (k : Nat × Nat) (c : Nat) :
    ((insertAdd m k c).map Prod.snd).sum = (m.map Prod.snd).sum + c := by
  induction m with
  | nil => simp [insertAdd]
  | cons kc rest ih =>
      rw [insertAdd]
      by_cases he : kc.1 = k
      · rw [if_pos he]
        simp only [List.map_cons, List.sum_cons]
        omega
      · rw [if_neg he]
        simp only [List.map_cons, List.sum_cons, ih]
        omega

/-- The `(bin1, bin2)` lexicographic order used by `sort_by_key(|rec| (rec.0, rec.1))`
in both builders. -/
def pixelLe (p q : PixelT) : Prop := p.1 < q.1 ∨ (p.1 = q.1 ∧ p.2.1 ≤ q.2.1)

instance : DecidableRel pixelLe := fun p q => by unfold pixelLe; infer_instance

instance : IsTotal PixelT pixelLe := ⟨by intro a b; unfold pixelLe; omega⟩

instance : IsTrans PixelT pixelLe := ⟨by intro a b c; unfold pixelLe; omega⟩

/-- Sort a pixel list by `(bin1, bin2)`; model of Rust's stable
`sort_by_key(|rec| (rec.0, rec.1))`. -/
def sortPixels (l : List PixelT) : List PixelT := List.insertionSort pixelLe l

/-- The data `ZoomBuilder::get_pixels` (`zoom_builder.rs:51-77`) reads from its
source group: the target resolution, the source bin coordinate table
`bscs[bin] = (crom_id, anchor)` and the coarse per-contig offsets. -/
structure ZoomB where
  new_res : Nat
  bscs : List (Nat × Nat)
  tig_offsets : List Nat

/-- Coarse bin id of a source bin (`zoom_builder.rs:61-66`):
`tig_offsets[crom_id] + anchor / new_res`. -/
def ZoomB.newBin (zb : ZoomB) (b : Nat) : Nat :=
  (zb.tig_offsets.getD (zb.bscs.getD b (0, 0)).1 0) + (zb.bscs.getD b (0, 0)).2 / zb.new_res

/-- Embedding of `ZoomBuilder::get_pixels` (`zoom_builder.rs:51-77`): map every
source pixel's endpoints to coarse bins, accumulate counts per coarse pair in
a hash map, then emit the list sorted by `(bin1, bin2)`.  `none` models the
`assert!(new_bin1_id <= new_bin2_id)` panic. -/
def zoom_get_pixels (zb : ZoomB) (src : List PixelT) : Option (List PixelT) :=
  (src.foldl (fun acc px =>
      acc.bind (fun m =>
        let nb1 := zb.newBin px.1
        let nb2 := zb.newBin px.2.1
        if nb1 ≤ nb2 then some (insertAdd m (nb1, nb2) px.2.2) else none))
    (some [])).map
    (fun m => sortPixels (m.map (fun kv => (kv.1.1, kv.1.2, kv.2))))

/-- Total count mass of a pixel list. -/
def sumCounts (l : List PixelT) : Nat := (l.map (fun p => p.2.2)).sum

theorem zoom_fold_sum (zb : ZoomB) :
    ∀ (src : List PixelT) (m0 m : List ((Nat × Nat) × Nat)),
      src.foldl (fun acc px =>
        acc.bind (fun m =>
          let nb1 := zb.newBin px.1
          let nb2 := zb.newBin px.2.1
          if nb1 ≤ nb2 then some (insertAdd m (nb1, nb2) px.2.2) else none))
        (some m0) = some m →
      (m.map Prod.snd).sum = (m0.map Prod.snd).sum + sumCounts src := by
  intro src
  induction src with
  | nil =>
      intro m0 m h
      simp only [List.foldl_nil, Option.some.injEq] at h
      subst h
      simp [sumCounts]
  | cons px rest ih =>
      intro m0 m h
      rw [List.foldl_cons] at h
      simp only [Option.some_bind] at h
      by_cases hc : zb.newBin px.1 ≤ zb.newBin px.2.1
      · rw [if_pos hc] at h
        have := ih (insertAdd m0 (zb.newBin px.1, zb.newBin px.2.1) px.2.2) m h
        rw [this, insertAdd_vals_sum]
        simp only [sumCounts, List.map_cons, List.sum_cons]
        omega
      · rw [if_neg hc] at h
        exfalso
        have : ∀ (l : List PixelT),
            l.foldl (fun acc px =>
              acc.bind (fun m =>
                let nb1 := zb.newBin px.1
                let nb2 := zb.newBin px.2.1
                if nb1 ≤ nb2 then some (insertAdd m (nb1, nb2) px.2.2) else none))
              (none : Option (List ((Nat × Nat) × Nat))) = none := by
          intro l
          induction l with
          | nil => rfl
          | cons y ys ihy => simpa using ihy
        rw [this rest] at h
        exact Option.noConfusion h

theorem sortPixels_sum (l : List PixelT) : sumCounts (sortPixels l) = sumCounts l := by
  unfold sumCounts sortPixels
  exact List.Perm.sum_eq (List.Perm.map _ (List.perm_insertionSort pixelLe l))

/-- C4: whenever `ZoomBuilder::get_pixels` produces a pixel list, its total
count mass equals the total count mass of the source pixels — aggregation
conserves mass (the hypothesis `R_to` an exact multiple of `R_from` of the
claim is not even needed for conservation; it is needed only for the
aggregation to be meaningful). -/
theorem zoom_mass_conservation (zb : ZoomB) (src : List PixelT) (res : List PixelT)
    (h : zoom_get_pixels zb src = some res) : sumCounts res = sumCounts src := by
  unfold zoom_get_pixels at h
  rw [Option.map_eq_some'] at h
  obtain ⟨m, hm, rfl⟩ := h
  rw [sortPixels_sum]
  have hsum := zoom_fold_sum zb src [] m hm
  simp only [List.map_nil, List.sum_nil, Nat.zero_add] at hsum
  unfold sumCounts
  rw [List.map_map]
  exact hsum

theorem zoom_mass_conservation_witness :
    sumCounts [(0, 0, 5), (0, 1, 7)] = sumCounts [(0, 0, 5), (0, 2, 4), (1, 3, 3)] :=
  zoom_mass_conservation ⟨2, [(0, 0), (0, 1), (0, 2), (0, 3)], [0, 2]⟩
    [(0, 0, 5), (0, 2, 4), (1, 3, 3)] [(0, 0, 5), (0, 1, 7)] (by decide)

/-- Number of bins a contig of length `len` is tiled into at resolution
`rsltn`: `ceil(len / rsltn)` (`res_grp_builder.rs:24`; the source computes the
ceiling through `f64`, exact for all realistic lengths, modelled as the exact
natural ceiling). -/
def nBinsOf (rsltn len : Nat) : Nat := (len + rsltn - 1) / rsltn

/-- Embedding of `ResGrpBuilder::build_tig_offsets` (`res_grp_builder.rs:19-29`):
`tig_offsets[i]` is the number of bins of the contigs before contig `i`;
the trailing entry is the total bin count. -/
def build_tig_offsets (rsltn : Nat) (tig_lengths : List Nat) : List Nat :=
  go tig_lengths 0
where
  go : List Nat → Nat → List Nat
  | [], count => [count]
  | len :: rest, count => count :: go rest (count + nBinsOf rsltn len)

/-- The part of `PairsBuilder` that `pair_to_bin_rec` reads
(`pair_builder.rs:13-22`): the resolution, the contig lengths in catalog
order, and the per-contig bin offsets.  Contig names are modelled by their
catalog index; an unknown name is modelled by an out-of-range index (the
lookups below then return `none`, exactly like `name2order.get`). -/
structure PairsB where
  rsltn : Nat
  tig_lengths : List Nat
  tig_offsets : List Nat

/-- `PairsBuilder::get_tig_length_by_name` (`pair_builder.rs:137-139`). -/
def get_tig_length (b : PairsB) (tig : Nat) : Option Nat := b.tig_lengths[tig]?

/-- `PairsBuilder::get_tig_offset_by_name` (`pair_builder.rs:141-143`). -/
def get_tig_offset (b : PairsB) (tig : Nat) : Option Nat := b.tig_offsets[tig]?

/-- The `get_anchor` closure of `pair_to_bin_rec` (`pair_builder.rs:119-121`):
clamp the position with `max_len.min(anchor)` (note: inclusive of the length). -/
def get_anchor (b : PairsB) (anchor tig : Nat) : Option Nat :=
  (get_tig_length b tig).map (fun max_len => min max_len anchor)

/-- Embedding of `PairsBuilder::pair_to_bin_rec` (`pair_builder.rs:118-135`):
clamp both anchors, map each to `chrom_offset[contig] + anchor / R`, and order
the pair as `(min, max)`; `none` when either contig is unknown. -/
def pair_to_bin_rec (b : PairsB) (tig1 pos1 tig2 pos2 : Nat) : Option (Nat × Nat) :=
  match get_anchor b pos1 tig1, get_anchor b pos2 tig2,
      get_tig_offset b tig1, get_tig_offset b tig2 with
  | some a1, some a2, some o1, some o2 =>
      let bin1 := o1 + a1 / b.rsltn
      let bin2 := o2 + a2 / b.rsltn
      some (if bin1 ≤ bin2 then (bin1, bin2) else (bin2, bin1))
  | _, _, _, _ => none

/-- Embedding of `PairsBuilder::get_pixels` (`pair_builder.rs:52-84`): bin each
pair record (skipping records whose contigs are unknown), count identical bin
pairs in a hash map, and emit the list sorted by `(bin1, bin2)`.  A record is
`(tig1, pos1, tig2, pos2)`. -/
def pairs_get_pixels (b : PairsB) (records : List (Nat × Nat × Nat × Nat)) : List PixelT :=
  let m := records.foldl (fun acc r =>
    match pair_to_bin_rec b r.1 r.2.1 r.2.2.1 r.2.2.2 with
    | some bin_rec => insertAdd acc bin_rec 1
    | none => acc) []
  sortPixels (m.map (fun kv => (kv.1.1, kv.1.2, kv.2)))

theorem build_tig_offsets_go_getD (rsltn : Nat) :
    ∀ (lens : List Nat) (c i : Nat), i ≤ lens.length →
      ((build_tig_offsets.go rsltn lens c).getD i 0 =
        c + ((lens.take i).map (nBinsOf rsltn)).sum) := by
  intro lens
  induction lens with
  | nil =>
      intro c i hi
      simp only [List.length_nil, Nat.le_zero] at hi
      subst hi
      simp [build_tig_offsets.go]
  | cons len rest ih =>
      intro c i hi
      cases i with
      | zero => simp [build_tig_offsets.go]
      | succ i' =>
          simp only [build_tig_offsets.go, List.getD_cons_succ, List.take_succ_cons,
            List.map_cons, List.sum_cons]
          rw [ih (c + nBinsOf rsltn len) i' (by simpa using hi)]
          omega

theorem build_tig_offsets_getD (rsltn : Nat) (lens : List Nat) (i : Nat)
    (hi : i ≤ lens.length) :
    (build_tig_offsets rsltn lens).getD i 0 = ((lens.take i).map (nBinsOf rsltn)).sum := by
  unfold build_tig_offsets
  rw [build_tig_offsets_go_getD rsltn lens 0 i hi]
  omega

theorem build_tig_offsets_succ (rsltn : Nat) (lens : List Nat) (i : Nat)
    (hi : i < lens.length) :
    (build_tig_offsets rsltn lens).getD (i + 1) 0 =
      (build_tig_offsets rsltn lens).getD i 0 + nBinsOf rsltn (lens.getD i 0) := by
  rw [build_tig_offsets_getD rsltn lens i (le_of_lt hi),
    build_tig_offsets_getD rsltn lens (i + 1) hi,
    List.take_succ]
  have : lens[i]? = some (lens.getD i 0) := by
    rw [List.getElem?_eq_getElem hi, List.getD_eq_getElem?_getD, List.getElem?_eq_getElem hi]
    rfl
  rw [this]
  simp

theorem div_lt_nBinsOf {rsltn len pos : Nat} (hr : 0 < rsltn) (hp : pos < len) :
    pos / rsltn < nBinsOf rsltn len := by
  unfold nBinsOf
  have h3 : len + rsltn - 1 = len - 1 + rsltn := by omega
  rw [h3, Nat.add_div_right _ hr]
  have h1 : pos / rsltn ≤ (len - 1) / rsltn := Nat.div_le_div_right (by omega)
  omega

theorem build_tig_offsets_go_length (rsltn : Nat) :
    ∀ (lens : List Nat) (c : Nat), (build_tig_offsets.go rsltn lens c).length = lens.length + 1 := by
  intro lens
  induction lens with
  | nil => intro c; rfl
  | cons len rest ih => intro c; simp [build_tig_offsets.go, ih]

theorem build_tig_offsets_length (rsltn : Nat) (lens : List Nat) :
    (build_tig_offsets rsltn lens).length = lens.length + 1 :=
  build_tig_offsets_go_length rsltn lens 0

/-- C5 is false as stated: `pair_to_bin_rec` clamps an anchor to the closed
range `[0, contig_length]` (`max_len.min(anchor)`), not to `[0, contig_length)`.
For one contig of length 1000 at resolution 500 (`chrom_offset = [0, 2]`), the
record with both positions equal to 1000 is mapped to bin `0 + 1000/500 = 2`,
which is outside the contig's bin range `[0, 2)`. -/
theorem pair_to_bin_rec_range_counterexample :
    pair_to_bin_rec ⟨500, [1000], build_tig_offsets 500 [1000]⟩ 0 1000 0 1000 = some (2, 2) ∧
    (build_tig_offsets 500 [1000]).getD 0 0 = 0 ∧
    (build_tig_offsets 500 [1000]).getD 1 0 = 2 ∧
    ¬ ((2 : Nat) < (build_tig_offsets 500 [1000]).getD 1 0) := by
  decide

/-- C5 (amended): `pair_to_bin_rec` clamps each anchor to the closed range
`[0, contig_length]` (not the half-open one); whenever both anchor positions
are strictly below their contig lengths, the record maps to
`chrom_offset[tig] + pos / R` on each side, ordered as `(min, max)`, and each
of the two bin ids lies inside its contig's bin range
`[chrom_offset[c], chrom_offset[c+1])`. -/
theorem pair_to_bin_rec_range (b : PairsB) (tig1 pos1 tig2 pos2 : Nat)
    (hoff : b.tig_offsets = build_tig_offsets b.rsltn b.tig_lengths)
    (hr : 0 < b.rsltn)
    (h1 : tig1 < b.tig_lengths.length) (h2 : tig2 < b.tig_lengths.length)
    (hp1 : pos1 < b.tig_lengths.getD tig1 0) (hp2 : pos2 < b.tig_lengths.getD tig2 0) :
    pair_to_bin_rec b tig1 pos1 tig2 pos2 =
      some (min (b.tig_offsets.getD tig1 0 + pos1 / b.rsltn)
              (b.tig_offsets.getD tig2 0 + pos2 / b.rsltn),
            max (b.tig_offsets.getD tig1 0 + pos1 / b.rsltn)
              (b.tig_offsets.getD tig2 0 + pos2 / b.rsltn)) ∧
    b.tig_offsets.getD tig1 0 ≤ b.tig_offsets.getD tig1 0 + pos1 / b.rsltn ∧
    b.tig_offsets.getD tig1 0 + pos1 / b.rsltn < b.tig_offsets.getD (tig1 + 1) 0 ∧
    b.tig_offsets.getD tig2 0 ≤ b.tig_offsets.getD tig2 0 + pos2 / b.rsltn ∧
    b.tig_offsets.getD tig2 0 + pos2 / b.rsltn < b.tig_offsets.getD (tig2 + 1) 0 := by
  have hlen1 : b.tig_lengths[tig1]? = some (b.tig_lengths.getD tig1 0) := by
    rw [List.getElem?_eq_getElem h1, List.getD_eq_getElem?_getD, List.getElem?_eq_getElem h1]
    rfl
  have hlen2 : b.tig_lengths[tig2]? = some (b.tig_lengths.getD tig2 0) := by
    rw [List.getElem?_eq_getElem h2, List.getD_eq_getElem?_getD, List.getElem?_eq_getElem h2]
    rfl
  have hofflen : b.tig_offsets.length = b.tig_lengths.length + 1 := by
    rw [hoff, build_tig_offsets_length]
  have hoff1 : b.tig_offsets[tig1]? = some (b.tig_offsets.getD tig1 0) := by
    have : tig1 < b.tig_offsets.length := by omega
    rw [List.getElem?_eq_getElem this, List.getD_eq_getElem?_getD, List.getElem?_eq_getElem this]
    rfl
  have hoff2 : b.tig_offsets[tig2]? = some (b.tig_offsets.getD tig2 0) := by
    have : tig2 < b.tig_offsets.length := by omega
    rw [List.getElem?_eq_getElem this, List.getD_eq_getElem?_getD, List.getElem?_eq_getElem this]
    rfl
  have ha1 : get_anchor b pos1 tig1 = some pos1 := by
    unfold get_anchor get_tig_length
    rw [hlen1]
    simp only [Option.map_some']
    rw [Nat.min_eq_right (by omega)]
  have ha2 : get_anchor b pos2 tig2 = some pos2 := by
    unfold get_anchor get_tig_length
    rw [hlen2]
    simp only [Option.map_some']
    rw [Nat.min_eq_right (by omega)]
  have hb1 : b.tig_offsets.getD tig1 0 + pos1 / b.rsltn < b.tig_offsets.getD (tig1 + 1) 0 := by
    rw [hoff, build_tig_offsets_succ b.rsltn b.tig_lengths tig1 h1]
    have := div_lt_nBinsOf hr hp1
    omega
  have hb2 : b.tig_offsets.getD tig2 0 + pos2 / b.rsltn < b.tig_offsets.getD (tig2 + 1) 0 := by
    rw [hoff, build_tig_offsets_succ b.rsltn b.tig_lengths tig2 h2]
    have := div_lt_nBinsOf hr hp2
    omega
  refine ⟨?_, Nat.le_add_right _ _, hb1, Nat.le_add_right _ _, hb2⟩
  unfold pair_to_bin_rec get_tig_offset
  rw [ha1, ha2, hoff1, hoff2]
  simp only
  split_ifs with hle
  · rw [Nat.min_eq_left hle, Nat.max_eq_right hle]
  · rw [Nat.min_eq_right (by omega), Nat.max_eq_left (by omega)]

theorem pair_to_bin_rec_range_witness :
    pair_to_bin_rec ⟨500, [1000], build_tig_offsets 500 [1000]⟩ 0 100 0 600 =
      some (min ((build_tig_offsets 500 [1000]).getD 0 0 + 100 / 500)
              ((build_tig_offsets 500 [1000]).getD 0 0 + 600 / 500),
            max ((build_tig_offsets 500 [1000]).getD 0 0 + 100 / 500)
              ((build_tig_offsets 500 [1000]).getD 0 0 + 600 / 500)) ∧
    (build_tig_offsets 500 [1000]).getD 0 0 ≤ (build_tig_offsets 500 [1000]).getD 0 0 + 100 / 500 ∧
    (build_tig_offsets 500 [1000]).getD 0 0 + 100 / 500 < (build_tig_offsets 500 [1000]).getD 1 0 ∧
    (build_tig_offsets 500 [1000]).getD 0 0 ≤ (build_tig_offsets 500 [1000]).getD 0 0 + 600 / 500 ∧
    (build_tig_offsets 500 [1000]).getD 0 0 + 600 / 500 < (build_tig_offsets 500 [1000]).getD 1 0 :=
  pair_to_bin_rec_range ⟨500, [1000], build_tig_offsets 500 [1000]⟩ 0 100 0 600
    rfl (by decide) (by decide) (by decide) (by decide) (by decide)

theorem pair_to_bin_rec_triangular {b : PairsB} {tig1 pos1 tig2 pos2 : Nat}
    {k : Nat × Nat} (h : pair_to_bin_rec b tig1 pos1 tig2 pos2 = some k) :
    k.1 ≤ k.2 := by
  unfold pair_to_bin_rec at h
  cases ha1 : get_anchor b pos1 tig1 with
  | none => rw [ha1] at h; exact Option.noConfusion h
  | some a1 =>
      cases ha2 : get_anchor b pos2 tig2 with
      | none => rw [ha1, ha2] at h; exact Option.noConfusion h
      | some a2 =>
          cases ho1 : get_tig_offset b tig1 with
          | none => rw [ha1, ha2, ho1] at h; exact Option.noConfusion h
          | some o1 =>
              cases ho2 : get_tig_offset b tig2 with
              | none => rw [ha1, ha2, ho1, ho2] at h; exact Option.noConfusion h
              | some o2 =>
                  rw [ha1, ha2, ho1, ho2] at h
                  simp only [Option.some.injEq] at h
                  subst h
                  split_ifs with hle
                  · exact hle
                  · omega

theorem zoom_fold_none (zb : ZoomB) (l : List PixelT) :
    l.foldl (fun acc px =>
      acc.bind (fun m =>
        let nb1 := zb.newBin px.1
        let nb2 := zb.newBin px.2.1
        if nb1 ≤ nb2 then some (insertAdd m (nb1, nb2) px.2.2) else none))
      (none : Option (List ((Nat × Nat) × Nat))) = none := by
  induction l with
  | nil => rfl
  | cons y ys ihy => simpa using ihy

theorem pairs_fold_inv (b : PairsB) :
    ∀ (records : List (Nat × Nat × Nat × Nat)) (acc : List ((Nat × Nat) × Nat)),
      (acc.map Prod.fst).Nodup → (∀ k ∈ acc.map Prod.fst, k.1 ≤ k.2) →
      (((records.foldl (fun acc r =>
          match pair_to_bin_rec b r.1 r.2.1 r.2.2.1 r.2.2.2 with
          | some bin_rec => insertAdd acc bin_rec 1
          | none => acc) acc).map Prod.fst).Nodup ∧
        ∀ k ∈ (records.foldl (fun acc r =>
          match pair_to_bin_rec b r.1 r.2.1 r.2.2.1 r.2.2.2 with
          | some bin_rec => insertAdd acc bin_rec 1
          | none => acc) acc).map Prod.fst, k.1 ≤ k.2) := by
  intro records
  induction records with
  | nil => intro acc h1 h2; exact ⟨h1, h2⟩
  | cons r rest ih =>
      intro acc h1 h2
      rw [List.foldl_cons]
      cases hrec : pair_to_bin_rec b r.1 r.2.1 r.2.2.1 r.2.2.2 with
      | none => simpa [hrec] using ih acc h1 h2
      | some key =>
          simp only [hrec]
          refine ih _ (insertAdd_nodup h1) ?_
          intro k hk
          rcases insertAdd_keys k hk with h' | h'
          · exact h2 k h'
          · subst h'
            exact pair_to_bin_rec_triangular hrec

theorem zoom_fold_inv (zb : ZoomB) :
    ∀ (src : List PixelT) (acc m : List ((Nat × Nat) × Nat)),
      (acc.map Prod.fst).Nodup → (∀ k ∈ acc.map Prod.fst, k.1 ≤ k.2) →
      src.foldl (fun acc px =>
        acc.bind (fun m =>
          let nb1 := zb.newBin px.1
          let nb2 := zb.newBin px.2.1
          if nb1 ≤ nb2 then some (insertAdd m (nb1, nb2) px.2.2) else none))
        (some acc) = some m →
      ((m.map Prod.fst).Nodup ∧ ∀ k ∈ m.map Prod.fst, k.1 ≤ k.2) := by
  intro src
  induction src with
  | nil =>
      intro acc m h1 h2 h
      simp only [List.foldl_nil, Option.some.injEq] at h
      subst h
      exact ⟨h1, h2⟩
  | cons px rest ih =>
      intro acc m h1 h2 h
      rw [List.foldl_cons] at h
      simp only [Option.some_bind] at h
      by_cases hc : zb.newBin px.1 ≤ zb.newBin px.2.1
      · rw [if_pos hc] at h
        refine ih _ m (insertAdd_nodup h1) ?_ h
        intro k hk
        rcases insertAdd_keys k hk with h' | h'
        · exact h2 k h'
        · subst h'
          exact hc
      · rw [if_neg hc, zoom_fold_none] at h
        exact Option.noConfusion h

theorem sortPixels_props (m : List ((Nat × Nat) × Nat))
    (hnd : (m.map Prod.fst).Nodup) (htri : ∀ k ∈ m.map Prod.fst, k.1 ≤ k.2) :
    (∀ p ∈ sortPixels (m.map (fun kv => (kv.1.1, kv.1.2, kv.2))), p.1 ≤ p.2.1) ∧
      (sortPixels (m.map (fun kv => (kv.1.1, kv.1.2, kv.2)))).Pairwise
        (fun p q => p.1 < q.1 ∨ (p.1 = q.1 ∧ p.2.1 < q.2.1)) := by
  have hperm : (sortPixels (m.map (fun kv => (kv.1.1, kv.1.2, kv.2)))).Perm
      (m.map (fun kv => (kv.1.1, kv.1.2, kv.2))) :=
    List.perm_insertionSort pixelLe _
  constructor
  · intro p hp
    have := hperm.mem_iff.mp hp
    obtain ⟨kv, hkv, rfl⟩ := List.mem_map.mp this
    exact htri kv.1 (List.mem_map.mpr ⟨kv, hkv, rfl⟩)
  · have hsorted : (sortPixels (m.map (fun kv => (kv.1.1, kv.1.2, kv.2)))).Pairwise pixelLe :=
      List.sorted_insertionSort pixelLe _
    have hkeysnd : ((sortPixels (m.map (fun kv => (kv.1.1, kv.1.2, kv.2)))).map
        (fun p : PixelT => (p.1, p.2.1))).Nodup := by
      refine ((hperm.map (fun p : PixelT => (p.1, p.2.1))).nodup_iff).mpr ?_
      rw [List.map_map]
      have : ((fun p : PixelT => (p.1, p.2.1)) ∘ fun kv : (Nat × Nat) × Nat =>
          (kv.1.1, kv.1.2, kv.2)) = Prod.fst := by
        funext kv
        rfl
      rw [this]
      exact hnd
    have hkeyne : (sortPixels (m.map (fun kv => (kv.1.1, kv.1.2, kv.2)))).Pairwise
        (fun p q : PixelT => (p.1, p.2.1) ≠ (q.1, q.2.1)) :=
      List.pairwise_map.mp hkeysnd
    refine (hsorted.and hkeyne).imp ?_
    intro p q hpq
    obtain ⟨hle, hne⟩ := hpq
    rw [Ne, Prod.mk.injEq, not_and] at hne
    unfold pixelLe at hle
    rcases hle with h | h
    · exact Or.inl h
    · rcases Nat.lt_or_ge p.2.1 q.2.1 with h' | h'
      · exact Or.inr ⟨h.1, h'⟩
      · exfalso
        exact (hne h.1) (by omega)

/-- C7: the pixel lists emitted by `PairsBuilder::get_pixels` and (whenever it
returns) `ZoomBuilder::get_pixels` satisfy the storage invariant: every pixel
has `bin1 ≤ bin2`, and the list is strictly sorted by `(bin1, bin2)` (sorted
ascending with no duplicate pair, counts pre-aggregated by the hash map). -/
theorem builders_pixel_invariants :
    (∀ (b : PairsB) (records : List (Nat × Nat × Nat × Nat)),
      (∀ p ∈ pairs_get_pixels b records, p.1 ≤ p.2.1) ∧
        (pairs_get_pixels b records).Pairwise
          (fun p q => p.1 < q.1 ∨ (p.1 = q.1 ∧ p.2.1 < q.2.1))) ∧
    (∀ (zb : ZoomB) (src res : List PixelT), zoom_get_pixels zb src = some res →
      (∀ p ∈ res, p.1 ≤ p.2.1) ∧
        res.Pairwise (fun p q => p.1 < q.1 ∨ (p.1 = q.1 ∧ p.2.1 < q.2.1))) := by
  constructor
  · intro b records
    unfold pairs_get_pixels
    have hinv := pairs_fold_inv b records [] (by simp) (by simp)
    exact sortPixels_props _ hinv.1 hinv.2
  · intro zb src res h
    unfold zoom_get_pixels at h
    rw [Option.map_eq_some'] at h
    obtain ⟨m, hm, rfl⟩ := h
    have hinv := zoom_fold_inv zb src [] m (by simp) (by simp) hm
    exact sortPixels_props m hinv.1 hinv.2

theorem builders_pixel_invariants_witness :
    ([(0, 0, 5), (0, 1, 7)] : List PixelT).Pairwise
      (fun p q => p.1 < q.1 ∨ (p.1 = q.1 ∧ p.2.1 < q.2.1)) :=
  (builders_pixel_invariants.2 ⟨2, [(0, 0), (0, 1), (0, 2), (0, 3)], [0, 2]⟩
    [(0, 0, 5), (0, 2, 4), (1, 3, 3)] [(0, 0, 5), (0, 1, 7)] (by decide)).2

theorem getD_set_self {l : List Nat} {i : Nat} (h : i < l.length) (a : Nat) :
    (l.set i a).getD i 0 = a := by
  rw [List.getD_eq_getElem?_getD, List.getElem?_set_self h]
  rfl

theorem getD_set_ne {l : List Nat} {i j : Nat} (h : i ≠ j) (a : Nat) :
    (l.set i a).getD j 0 = l.getD j 0 := by
  rw [List.getD_eq_getElem?_getD, List.getElem?_set_ne h, ← List.getD_eq_getElem?_getD]

theorem getD_replicate_zero (n j : Nat) : (List.replicate n (0 : Nat)).getD j 0 = 0 := by
  rw [List.getD_eq_getElem?_getD, List.getElem?_replicate]
  split_ifs <;> rfl

/-- The `tuple_windows` pass of `build_bin_offsets_from_pixels`
(`res_grp_builder.rs:68-70`): walk consecutive pixel pairs, `i` being the index
of the current pixel, and set `bin_offsets[cur.bin1] = i` at each row change. -/
def transAux : List Nat → Nat → PixelT → List PixelT → List Nat
  | arr, _, _, [] => arr
  | arr, i, prev, cur :: rest =>
      transAux (if prev.1 ≠ cur.1 then arr.set cur.1 i else arr) (i + 1) cur rest

/-- The backward fill loop of `build_bin_offsets_from_pixels`
(`res_grp_builder.rs:73-75`), run for `k` steps at indices `i, i-1, ...`:
a zero entry receives the value of the entry just above it (the source only
reads `arr[i+1]` when `arr[i] == 0`, which the theorems below show only
happens away from the top index, so the model's out-of-range default is never
taken on well-formed input). -/
def backfillSteps : List Nat → Nat → Nat → List Nat
  | arr, _, 0 => arr
  | arr, i, k + 1 =>
      backfillSteps (if arr.getD i 0 = 0 then arr.set i (arr.getD (i + 1) 0) else arr) (i - 1) k

/-- Embedding of `ResGrpBuilder::build_bin_offsets_from_pixels`
(`res_grp_builder.rs:54-78`): all-zero array of length `total_bins + 1`;
for a non-empty pixel list, record the index of each row transition, store the
pixel count at the last position, and back-fill zero entries downward until
just above the first pixel's row. -/
def build_bin_offsets_from_pixels (total_bins : Nat) (pixels : List PixelT) : List Nat :=
  match pixels with
  | [] => List.replicate (total_bins + 1) 0
  | p :: rest =>
      let arr1 := transAux (List.replicate (total_bins + 1) 0) 1 p rest
      let arr2 := arr1.set total_bins (rest.length + 1)
      backfillSteps arr2 total_bins (total_bins - p.1)

theorem transAux_length :
    ∀ (l : List PixelT) (arr : List Nat) (i : Nat) (prev : PixelT),
      (transAux arr i prev l).length = arr.length := by
  intro l
  induction l with
  | nil => intro arr i prev; rfl
  | cons cur rest ih =>
      intro arr i prev
      rw [transAux, ih]
      split_ifs with h
      · exact List.length_set arr cur.1 i
      · rfl

theorem backfillSteps_length :
    ∀ (k : Nat) (arr : List Nat) (i : Nat), (backfillSteps arr i k).length = arr.length := by
  intro k
  induction k with
  | zero => intro arr i; rfl
  | succ k ih =>
      intro arr i
      rw [backfillSteps, ih]
      split_ifs with h
      · exact List.length_set arr i _
      · rfl

theorem transAux_getD :
    ∀ (l : List PixelT) (arr : List Nat) (i : Nat) (prev : PixelT) (j : Nat),
      (prev :: l).Pairwise (fun p q : PixelT => p.1 ≤ q.1) →
      (∀ p ∈ l, p.1 < arr.length) →
      (transAux arr i prev l).getD j 0 =
        if prev.1 < j ∧ j ∈ l.map (fun p => p.1) then
          i + (l.map (fun p => p.1)).countP (fun x => decide (x < j))
        else arr.getD j 0 := by
  intro l
  induction l with
  | nil =>
      intro arr i prev j _ _
      rw [if_neg (by simp)]
      rfl
  | cons q t ih =>
      intro arr i prev j hsort hbins
      have hpq : prev.1 ≤ q.1 :=
        (List.pairwise_cons.mp hsort).1 q (List.mem_cons_self q t)
      have hsort' : (q :: t).Pairwise (fun p q : PixelT => p.1 ≤ q.1) :=
        (List.pairwise_cons.mp hsort).2
      have hqt : ∀ b ∈ t, q.1 ≤ b.1 := (List.pairwise_cons.mp hsort').1
      have hql : q.1 < arr.length := hbins q (List.mem_cons_self q t)
      rw [transAux]
      have hlen' : (if prev.1 ≠ q.1 then arr.set q.1 i else arr).length = arr.length := by
        split_ifs <;> simp
      rw [ih _ (i + 1) q j hsort' (fun p hp => by rw [hlen']; exact hbins p (List.mem_cons_of_mem q hp))]
      rcases Nat.lt_trichotomy q.1 j with hquj | hquj | hquj
      · -- q.1 < j
        have hprevj : prev.1 < j := by omega
        by_cases hjt : j ∈ t.map (fun p => p.1)
        · rw [if_pos ⟨hquj, hjt⟩,
            if_pos ⟨hprevj, by simp only [List.map_cons, List.mem_cons]; exact Or.inr hjt⟩]
          simp only [List.map_cons, List.countP_cons]
          rw [if_pos (by simpa using hquj : decide (q.1 < j) = true)]
          omega
        · have hjq : j ∉ (q :: t).map (fun p => p.1) := by
            simp only [List.map_cons, List.mem_cons]
            intro hcon
            rcases hcon with hcon | hcon
            · omega
            · exact hjt hcon
          rw [if_neg (by intro hcon; exact hjt hcon.2)]
          split_ifs with hset hcond hcond'
          · exact absurd hcond.2 hjq
          · exact getD_set_ne (by omega) i
          · exact absurd hcond'.2 hjq
          · rfl
      · -- q.1 = j
        rw [if_neg (by omega)]
        by_cases hset : prev.1 ≠ q.1
        · rw [if_pos hset, hquj, getD_set_self (by omega) i]
          have hcond : prev.1 < j ∧ j ∈ (q :: t).map (fun p => p.1) := by
            constructor
            · omega
            · simp only [List.map_cons, List.mem_cons]
              left
              omega
          rw [if_pos hcond]
          have hz : ((q :: t).map (fun p => p.1)).countP (fun x => decide (x < j)) = 0 := by
            rw [List.countP_eq_zero]
            intro x hx
            simp only [List.map_cons, List.mem_cons, List.mem_map] at hx
            simp only [decide_eq_true_eq]
            rcases hx with hx | hx
            · omega
            · obtain ⟨pp, hpp, rfl⟩ := hx
              have := hqt pp hpp
              omega
          omega
        · rw [if_neg hset]
          push_neg at hset
          rw [if_neg (by intro hcon; omega)]
      · -- j < q.1
        have hjq : j ∉ (q :: t).map (fun p => p.1) := by
          simp only [List.map_cons, List.mem_cons, List.mem_map]
          intro hcon
          rcases hcon with hcon | hcon
          · omega
          · obtain ⟨pp, hpp, hppj⟩ := hcon
            have := hqt pp hpp
            omega
        rw [if_neg (by omega)]
        split_ifs with hset hcond hcond'
        · exact absurd hcond.2 hjq
        · exact getD_set_ne (by omega) i
        · exact absurd hcond'.2 hjq
        · rfl

theorem backfillSteps_getD (target : Nat → Nat) :
    ∀ (k : Nat) (arr : List Nat) (i : Nat),
      k ≤ i →
      (∀ j, i < j + k → j ≤ i →
        (arr.getD j 0 ≠ 0 ∧ arr.getD j 0 = target j) ∨
        (arr.getD j 0 = 0 ∧ target j = target (j + 1))) →
      (arr.getD i 0 = 0 → arr.getD (i + 1) 0 = target (i + 1)) →
      (∀ j, i < j + k → j ≤ i → j < arr.length) →
      ∀ j, (backfillSteps arr i k).getD j 0 =
        if i < j + k ∧ j ≤ i then target j else arr.getD j 0 := by
  intro k
  induction k with
  | zero =>
      intro arr i _ _ _ _ j
      rw [backfillSteps, if_neg (by omega)]
  | succ k ih =>
      intro arr i hk hinv htop hlen j
      rw [backfillSteps]
      set arr' := if arr.getD i 0 = 0 then arr.set i (arr.getD (i + 1) 0) else arr with harr'
      have hlen' : arr'.length = arr.length := by
        rw [harr']
        split_ifs
        · exact List.length_set arr i _
        · rfl
      have hself : arr'.getD i 0 = target i := by
        rw [harr']
        by_cases hz : arr.getD i 0 = 0
        · rw [if_pos hz, getD_set_self (hlen i (by omega) (le_refl i)) _]
          rcases hinv i (by omega) (le_refl i) with h' | h'
          · exact absurd hz h'.1
          · rw [htop hz, h'.2]
        · rw [if_neg hz]
          rcases hinv i (by omega) (le_refl i) with h' | h'
          · exact h'.2
          · exact absurd h'.1 hz
      have hne : ∀ j', j' ≠ i → arr'.getD j' 0 = arr.getD j' 0 := by
        intro j' hj'
        rw [harr']
        split_ifs
        · exact getD_set_ne (by omega) _
        · rfl
      have hres := ih arr' (i - 1) (by omega)
        (by
          intro j' h1 h2
          rw [hne j' (by omega)]
          exact hinv j' (by omega) (by omega))
        (by
          intro hz
          have : i - 1 + 1 = i := by omega
          rw [this, hself])
        (by
          intro j' h1 h2
          rw [hlen']
          exact hlen j' (by omega) (by omega))
        j
      rw [hres]
      by_cases hc1 : i - 1 < j + k ∧ j ≤ i - 1
      · rw [if_pos hc1, if_pos (by omega)]
      · rw [if_neg hc1]
        by_cases hc2 : j = i
        · subst hc2
          rw [if_pos (by omega)]
          exact hself
        · rw [if_neg (by omega)]
          exact hne j hc2

theorem countP_lt_succ_split (l : List PixelT) (k : Nat) :
    l.countP (fun p => decide (p.1 < k + 1)) =
      l.countP (fun p => decide (p.1 < k)) + l.countP (fun p => decide (p.1 = k)) := by
  induction l with
  | nil => rfl
  | cons x t ih =>
      simp only [List.countP_cons, ih]
      rcases Nat.lt_trichotomy x.1 k with h | h | h
      · rw [if_pos (by simpa using Nat.lt_succ_of_lt h), if_pos (by simpa using h),
          if_neg (by simp; omega)]
        omega
      · rw [if_pos (by simp; omega), if_neg (by simp; omega), if_pos (by simpa using h)]
        omega
      · rw [if_neg (by simp; omega), if_neg (by simp; omega), if_neg (by simp; omega)]
        omega

theorem build_bin_offsets_getD (total_bins : Nat) (pixels : List PixelT)
    (hsort : pixels.Pairwise pixelLe)
    (hbins : ∀ p ∈ pixels, p.1 < total_bins) :
    ∀ k, k ≤ total_bins →
      (build_bin_offsets_from_pixels total_bins pixels).getD k 0 =
        pixels.countP (fun p => decide (p.1 < k)) := by
  cases pixels with
  | nil =>
      intro k _
      simp [build_bin_offsets_from_pixels, getD_replicate_zero]
  | cons p rest =>
      intro k hk
      have hsort1 : (p :: rest).Pairwise (fun a b : PixelT => a.1 ≤ b.1) :=
        hsort.imp (fun h => by unfold pixelLe at h; omega)
      have hs : p.1 < total_bins := hbins p (List.mem_cons_self p rest)
      have hrest_ge : ∀ q ∈ rest, p.1 ≤ q.1 := (List.pairwise_cons.mp hsort1).1
      have hbins_rest : ∀ q ∈ rest, q.1 < (List.replicate (total_bins + 1) (0 : Nat)).length := by
        intro q hq
        rw [List.length_replicate]
        have := hbins q (List.mem_cons_of_mem _ hq)
        omega
      set arr1 := transAux (List.replicate (total_bins + 1) (0 : Nat)) 1 p rest with harr1
      have harr1_getD : ∀ j, arr1.getD j 0 =
          if p.1 < j ∧ j ∈ rest.map (fun q => q.1) then
            1 + (rest.map (fun q => q.1)).countP (fun x => decide (x < j))
          else 0 := by
        intro j
        rw [harr1, transAux_getD rest _ 1 p j hsort1 hbins_rest]
        by_cases hc : p.1 < j ∧ j ∈ rest.map (fun q => q.1)
        · rw [if_pos hc, if_pos hc]
        · rw [if_neg hc, if_neg hc, getD_replicate_zero]
      have harr1_len : arr1.length = total_bins + 1 := by
        rw [harr1, transAux_length]
        exact List.length_replicate _ _
      set arr2 := arr1.set total_bins (rest.length + 1) with harr2
      have harr2_len : arr2.length = total_bins + 1 := by
        rw [harr2, List.length_set, harr1_len]
      set target := fun k => (p :: rest).countP (fun q : PixelT => decide (q.1 < k))
        with htarget
      have hcount_rest : ∀ j, (rest.map (fun q : PixelT => q.1)).countP (fun x => decide (x < j)) =
          rest.countP (fun q : PixelT => decide (q.1 < j)) := by
        intro j
        rw [List.countP_map]
        rfl
      have htarget_top : target total_bins = rest.length + 1 := by
        show (p :: rest).countP (fun q : PixelT => decide (q.1 < total_bins)) = rest.length + 1
        have : (p :: rest).countP (fun q : PixelT => decide (q.1 < total_bins)) =
            (p :: rest).length :=
          List.countP_eq_length.mpr (fun q hq => by
            simp only [decide_eq_true_eq]
            exact hbins q hq)
        rw [this, List.length_cons]
      have hinv : ∀ j, total_bins < j + (total_bins - p.1) → j ≤ total_bins →
          (arr2.getD j 0 ≠ 0 ∧ arr2.getD j 0 = target j) ∨
          (arr2.getD j 0 = 0 ∧ target j = target (j + 1)) := by
        intro j h1 h2
        have hsj : p.1 < j := by omega
        by_cases hjtop : j = total_bins
        · subst hjtop
          left
          rw [harr2, getD_set_self (by rw [harr1_len]; omega) _]
          exact ⟨by omega, htarget_top.symm⟩
        · rw [harr2, getD_set_ne (by omega) _, harr1_getD j]
          by_cases hmem : j ∈ rest.map (fun q : PixelT => q.1)
          · left
            rw [if_pos ⟨hsj, hmem⟩]
            refine ⟨by omega, ?_⟩
            show 1 + (rest.map (fun q : PixelT => q.1)).countP (fun x => decide (x < j)) =
              (p :: rest).countP (fun q : PixelT => decide (q.1 < j))
            rw [List.countP_cons, if_pos (by simpa using hsj), hcount_rest j]
            omega
          · right
            rw [if_neg (by intro hcon; exact hmem hcon.2)]
            refine ⟨rfl, ?_⟩
            show (p :: rest).countP (fun q : PixelT => decide (q.1 < j)) =
              (p :: rest).countP (fun q : PixelT => decide (q.1 < j + 1))
            rw [countP_lt_succ_split]
            have hz : (p :: rest).countP (fun q : PixelT => decide (q.1 = j)) = 0 := by
              rw [List.countP_eq_zero]
              intro q hq
              simp only [decide_eq_true_eq]
              rcases List.mem_cons.mp hq with rfl | hq'
              · omega
              · intro hqj
                exact hmem (List.mem_map.mpr ⟨q, hq', hqj⟩)
            omega
      have htop : arr2.getD total_bins 0 = 0 →
          arr2.getD (total_bins + 1) 0 = target (total_bins + 1) := by
        intro hz
        rw [harr2, getD_set_self (by rw [harr1_len]; omega)] at hz
        omega
      have hlen : ∀ j, total_bins < j + (total_bins - p.1) → j ≤ total_bins →
          j < arr2.length := by
        intro j _ h2
        rw [harr2_len]
        omega
      have hmain := backfillSteps_getD target (total_bins - p.1) arr2 total_bins
        (by omega) hinv htop hlen k
      show (backfillSteps arr2 total_bins (total_bins - p.1)).getD k 0 = _
      rw [hmain]
      by_cases hks : p.1 < k
      · rw [if_pos (by omega)]
      · rw [if_neg (by omega), harr2, getD_set_ne (by omega) _, harr1_getD k,
          if_neg (by intro hcon; omega)]
        have hzero : (p :: rest).countP (fun q : PixelT => decide (q.1 < k)) = 0 := by
          rw [List.countP_eq_zero]
          intro q hq
          simp only [decide_eq_true_eq]
          rcases List.mem_cons.mp hq with rfl | hq'
          · omega
          · have := hrest_ge q hq'
            omega
        exact hzero.symm

/-- C6: for a pixel list sorted by `(bin1, bin2)` with all bins in range,
`build_bin_offsets_from_pixels` returns an array of length `n_bins + 1` whose
last element is the pixel count, which is monotonically non-decreasing, whose
consecutive differences count the pixels of each row, and whose entry `k` is
the index of the first pixel with `bin1 ≥ k` (= the number of pixels with
`bin1 < k`). -/
theorem bin_offsets_index_correct (total_bins : Nat) (pixels : List PixelT)
    (hsort : pixels.Pairwise pixelLe)
    (hbins : ∀ p ∈ pixels, p.1 < total_bins) :
    (build_bin_offsets_from_pixels total_bins pixels).length = total_bins + 1 ∧
    (build_bin_offsets_from_pixels total_bins pixels).getD total_bins 0 = pixels.length ∧
    (∀ k, k < total_bins →
      (build_bin_offsets_from_pixels total_bins pixels).getD k 0 ≤
        (build_bin_offsets_from_pixels total_bins pixels).getD (k + 1) 0) ∧
    (∀ k, k < total_bins →
      (build_bin_offsets_from_pixels total_bins pixels).getD (k + 1) 0 -
        (build_bin_offsets_from_pixels total_bins pixels).getD k 0 =
        pixels.countP (fun p => decide (p.1 = k))) ∧
    (∀ k, k ≤ total_bins →
      (build_bin_offsets_from_pixels total_bins pixels).getD k 0 =
        pixels.countP (fun p => decide (p.1 < k))) := by
  have hchar := build_bin_offsets_getD total_bins pixels hsort hbins
  refine ⟨?_, ?_, ?_, ?_, hchar⟩
  · cases pixels with
    | nil => simp [build_bin_offsets_from_pixels]
    | cons p rest =>
        show (backfillSteps _ _ _).length = _
        rw [backfillSteps_length, List.length_set, transAux_length, List.length_replicate]
  · rw [hchar total_bins (le_refl _)]
    rw [List.countP_eq_length.mpr (fun q hq => by
      simp only [decide_eq_true_eq]
      exact hbins q hq)]
  · intro k hkn
    rw [hchar k (by omega), hchar (k + 1) (by omega), countP_lt_succ_split]
    omega
  · intro k hkn
    rw [hchar k (by omega), hchar (k + 1) (by omega), countP_lt_succ_split]
    omega

theorem bin_offsets_index_correct_witness :
    (build_bin_offsets_from_pixels 2 [(0, 0, 5), (0, 1, 7), (1, 1, 9)]).getD 2 0 =
      ([(0, 0, 5), (0, 1, 7), (1, 1, 9)] : List PixelT).length :=
  (bin_offsets_index_correct 2 [(0, 0, 5), (0, 1, 7), (1, 1, 9)]
    (by unfold pixelLe; decide) (by decide)).2.1

/-- The adjacent-duplicate check of `get_zooming_order`
(`matrix_builder.rs:78`): `tuple_windows` over the sorted list, bailing out on
any equal neighbours. -/
def hasAdjDup : List Nat → Bool
  | a :: b :: t => decide (a = b) || hasAdjDup (b :: t)
  | _ => false

/-- The predecessor scan of `get_zooming_order` (`matrix_builder.rs:85-97`):
for a position `i ≥ 1` holding a requested new resolution, the largest `p < i`
whose resolution evenly divides it, else `-1`. -/
def predAt (rsltns new_resolutions : List Nat) (i : Nat) : Int :=
  if 1 ≤ i ∧ rsltns.getD i 0 ∈ new_resolutions then
    ((List.range i).reverse.find?
        (fun p => decide (rsltns.getD i 0 % rsltns.getD p 0 = 0))).elim (-1) Int.ofNat
  else -1

/-- Embedding of `get_zooming_order` (`matrix_builder.rs:70-100`): merge the
existing and requested resolutions, sort ascending, and pair each resolution
with its build predecessor index (`-1` for "none").  The guards return `[]`
when either input list is empty, on duplicate resolutions, or when the overall
smallest resolution is a requested one. -/
def get_zooming_order (resolutions new_resolutions : List Nat) : List (Nat × Int) :=
  if resolutions.isEmpty ∨ new_resolutions.isEmpty then []
  else
    let rsltns := List.insertionSort (· ≤ ·) (resolutions ++ new_resolutions)
    if hasAdjDup rsltns then []
    else if rsltns.getD 0 0 ∈ new_resolutions then []
    else (List.range rsltns.length).map
      (fun i => (rsltns.getD i 0, predAt rsltns new_resolutions i))

/-- The driver loop of `zoom` (`matrix_builder.rs:53-67`): `none` models the
`assert!(!rsltns.is_empty())` panic; otherwise the list of `(from, to)` zoom
operations actually performed — entries whose predecessor is `-1` are simply
skipped by the `if res.1 != -1` test. -/
def zoom_ops (resolutions new_resolutions : List Nat) : Option (List (Nat × Nat)) :=
  if (get_zooming_order resolutions new_resolutions).isEmpty then none
  else some
    (((get_zooming_order resolutions new_resolutions).filter
        (fun rp => decide (rp.2 ≠ -1))).map
      (fun rp => (((get_zooming_order resolutions new_resolutions).getD rp.2.toNat (0, -1)).1,
        rp.1)))

/-- Entry `i` of the zooming order (with an out-of-range default). -/
def zord (resolutions new_resolutions : List Nat) (i : Nat) : Nat × Int :=
  (get_zooming_order resolutions new_resolutions).getD i (0, -1)

/-- C8 is false as stated: a requested resolution that no smaller resolution
evenly divides is NOT reported as an error — its predecessor stays `-1` and
the `zoom` driver silently performs no operation for it and returns
successfully.  With one existing resolution 1000 and the request 1500, the
order marks 1500 with predecessor `-1` and `zoom` succeeds doing nothing. -/
theorem zoom_order_counterexample :
    get_zooming_order [1000] [1500] = [(1000, -1), (1500, -1)] ∧
    zoom_ops [1000] [1500] = some [] := by
  decide

theorem map_getD_range : ∀ (l : List Nat), (List.range l.length).map (fun i => l.getD i 0) = l := by
  intro l
  induction l with
  | nil => rfl
  | cons x t ih =>
      rw [List.length_cons, List.range_succ_eq_map, List.map_cons, List.map_map]
      have hcomp : (List.range t.length).map ((fun i => (x :: t).getD i 0) ∘ Nat.succ) = t := by
        rw [show ((fun i => (x :: t).getD i 0) ∘ Nat.succ) = (fun i => t.getD i 0) from rfl]
        exact ih
      rw [hcomp]
      rfl

theorem pairwise_lt_of_sorted_nodupAdj :
    ∀ (l : List Nat), l.Pairwise (· ≤ ·) → hasAdjDup l = false → l.Pairwise (· < ·) := by
  intro l
  induction l with
  | nil => intro _ _; exact List.Pairwise.nil
  | cons a t ih =>
      intro hs hd
      have hs' := List.pairwise_cons.mp hs
      cases t with
      | nil => exact List.pairwise_singleton _ _
      | cons b t' =>
          rw [hasAdjDup] at hd
          simp only [Bool.or_eq_false_iff, decide_eq_false_iff_not] at hd
          have hbt := ih hs'.2 hd.2
          rw [List.pairwise_cons]
          refine ⟨?_, hbt⟩
          intro c hc
          have hab : a < b := lt_of_le_of_ne (hs'.1 b (List.mem_cons_self b t')) hd.1
          rcases List.mem_cons.mp hc with rfl | hc'
          · exact hab
          · have hbc : b ≤ c := ((List.pairwise_cons.mp hs'.2).1 c hc')
            omega

theorem find_rev_range_some (f : Nat → Bool) :
    ∀ (i p : Nat), (List.range i).reverse.find? f = some p →
      p < i ∧ f p = true ∧ ∀ q, p < q → q < i → f q = false := by
  intro i
  induction i with
  | zero => intro p h; simp at h
  | succ i ih =>
      intro p h
      rw [List.range_succ, List.reverse_append] at h
      simp only [List.reverse_singleton, List.singleton_append] at h
      by_cases hfi : f i = true
      · rw [List.find?_cons_of_pos _ hfi, Option.some.injEq] at h
        subst h
        exact ⟨by omega, hfi, fun q h1 h2 => by omega⟩
      · rw [List.find?_cons_of_neg _ hfi] at h
        obtain ⟨h1, h2, h3⟩ := ih p h
        refine ⟨by omega, h2, ?_⟩
        intro q hq1 hq2
        rcases Nat.lt_or_ge q i with hq | hq
        · exact h3 q hq1 hq
        · have : q = i := by omega
          subst this
          simpa using hfi

theorem find_rev_range_none (f : Nat → Bool) :
    ∀ (i : Nat), (List.range i).reverse.find? f = none → ∀ q, q < i → f q = false := by
  intro i
  induction i with
  | zero => intro _ q hq; omega
  | succ i ih =>
      intro h q hq
      rw [List.range_succ, List.reverse_append] at h
      simp only [List.reverse_singleton, List.singleton_append] at h
      by_cases hfi : f i = true
      · rw [List.find?_cons_of_pos _ hfi] at h
        exact Option.noConfusion h
      · rw [List.find?_cons_of_neg _ hfi] at h
        rcases Nat.lt_or_ge q i with hq' | hq'
        · exact ih h q hq'
        · have : q = i := by omega
          subst this
          simpa using hfi

theorem getD_map_range {α : Type} (f : Nat → α) (n i : Nat) (d : α) (hi : i < n) :
    ((List.range n).map f).getD i d = f i := by
  rw [List.getD_eq_getElem?_getD, List.getElem?_map, List.getElem?_range hi]
  rfl

theorem zoom_order_amended_of_empty (ress news : List Nat)
    (hord : get_zooming_order ress news = []) :
    ((get_zooming_order ress news).map Prod.fst).Pairwise (· < ·) ∧
    (∀ i, i < (get_zooming_order ress news).length →
      (0 ≤ (zord ress news i).2 →
        (zord ress news i).2.toNat < i ∧
        (zord ress news i).1 % (zord ress news (zord ress news i).2.toNat).1 = 0 ∧
        ∀ q, (zord ress news i).2.toNat < q → q < i →
          (zord ress news i).1 % (zord ress news q).1 ≠ 0) ∧
      ((zord ress news i).1 ∈ news → 1 ≤ i → (zord ress news i).2 = -1 →
        ∀ q, q < i → (zord ress news i).1 % (zord ress news q).1 ≠ 0)) ∧
    (∀ ops, zoom_ops ress news = some ops →
      ∀ rp ∈ get_zooming_order ress news, rp.2 = -1 → ∀ op ∈ ops, op.2 ≠ rp.1) := by
  refine ⟨?_, ?_, ?_⟩
  · rw [hord]
    exact List.Pairwise.nil
  · intro i hi
    rw [hord] at hi
    simp at hi
  · intro ops hops
    unfold zoom_ops at hops
    rw [hord] at hops
    simp at hops

theorem predAt_spec (rsltns news : List Nat) (i : Nat) :
    (0 ≤ predAt rsltns news i →
      (predAt rsltns news i).toNat < i ∧
      rsltns.getD i 0 % rsltns.getD (predAt rsltns news i).toNat 0 = 0 ∧
      ∀ q, (predAt rsltns news i).toNat < q → q < i →
        rsltns.getD i 0 % rsltns.getD q 0 ≠ 0) ∧
    (rsltns.getD i 0 ∈ news → 1 ≤ i → predAt rsltns news i = -1 →
      ∀ q, q < i → rsltns.getD i 0 % rsltns.getD q 0 ≠ 0) := by
  unfold predAt
  by_cases hguard : 1 ≤ i ∧ rsltns.getD i 0 ∈ news
  · simp only [if_pos hguard]
    cases hfind : (List.range i).reverse.find?
        (fun p => decide (rsltns.getD i 0 % rsltns.getD p 0 = 0)) with
    | some p =>
        obtain ⟨hp1, hp2, hp3⟩ := find_rev_range_some _ i p hfind
        simp only [Option.elim_some]
        constructor
        · intro _
          refine ⟨by simpa using hp1, by simpa using hp2, ?_⟩
          intro q hq1 hq2
          have := hp3 q (by simpa using hq1) hq2
          simpa using this
        · intro _ _ hneg
          simp at hneg
    | none =>
        simp only [Option.elim_none]
        constructor
        · intro hpos
          simp at hpos
        · intro _ _ _ q hq
          have := find_rev_range_none _ i hfind q hq
          simpa using this
  · simp only [if_neg hguard]
    constructor
    · intro hpos
      simp at hpos
    · intro hmem h1i _ q hq
      exact absurd ⟨h1i, hmem⟩ hguard

/-- C8 (amended): the zooming order processes resolutions in strictly
increasing numeric order; whenever a requested resolution gets a predecessor,
it is the largest earlier resolution that evenly divides it; and a requested
resolution that no smaller resolution evenly divides gets predecessor `-1`
and is silently skipped by `zoom` — it appears in no performed zoom operation
and no error is raised (rather than being reported as an error, as the claim
states). -/
theorem zoom_order_amended (ress news : List Nat) :
    ((get_zooming_order ress news).map Prod.fst).Pairwise (· < ·) ∧
    (∀ i, i < (get_zooming_order ress news).length →
      (0 ≤ (zord ress news i).2 →
        (zord ress news i).2.toNat < i ∧
        (zord ress news i).1 % (zord ress news (zord ress news i).2.toNat).1 = 0 ∧
        ∀ q, (zord ress news i).2.toNat < q → q < i →
          (zord ress news i).1 % (zord ress news q).1 ≠ 0) ∧
      ((zord ress news i).1 ∈ news → 1 ≤ i → (zord ress news i).2 = -1 →
        ∀ q, q < i → (zord ress news i).1 % (zord ress news q).1 ≠ 0)) ∧
    (∀ ops, zoom_ops ress news = some ops →
      ∀ rp ∈ get_zooming_order ress news, rp.2 = -1 → ∀ op ∈ ops, op.2 ≠ rp.1) := by
  by_cases hg1 : ress.isEmpty ∨ news.isEmpty
  · exact zoom_order_amended_of_empty ress news (by unfold get_zooming_order; rw [if_pos hg1])
  · by_cases hg2 : hasAdjDup (List.insertionSort (· ≤ ·) (ress ++ news)) = true
    · refine zoom_order_amended_of_empty ress news ?_
      unfold get_zooming_order
      rw [if_neg hg1, if_pos hg2]
    · by_cases hg3 : (List.insertionSort (· ≤ ·) (ress ++ news)).getD 0 0 ∈ news
      · refine zoom_order_amended_of_empty ress news ?_
        unfold get_zooming_order
        rw [if_neg hg1]
        simp only [if_pos hg3, if_neg hg2]
      · -- main branch
        set rs := List.insertionSort (· ≤ ·) (ress ++ news) with hrs
        have hord : get_zooming_order ress news =
            (List.range rs.length).map (fun i => (rs.getD i 0, predAt rs news i)) := by
          unfold get_zooming_order
          rw [if_neg hg1]
          simp only [← hrs, if_neg hg2, if_neg hg3]
        have hlen : (get_zooming_order ress news).length = rs.length := by
          rw [hord, List.length_map, List.length_range]
        have hzord : ∀ i, i < rs.length →
            zord ress news i = (rs.getD i 0, predAt rs news i) := by
          intro i hi
          unfold zord
          rw [hord]
          exact getD_map_range _ _ _ _ hi
        have hsorted : rs.Pairwise (· < ·) :=
          pairwise_lt_of_sorted_nodupAdj rs (List.sorted_insertionSort _ _)
            (by simpa using hg2)
        have hmapfst : (get_zooming_order ress news).map Prod.fst = rs := by
          rw [hord, List.map_map]
          exact map_getD_range rs
        have hfst : ∀ j, j < rs.length → (zord ress news j).1 = rs.getD j 0 := by
          intro j hj
          rw [hzord j hj]
        have hsnd : ∀ j, j < rs.length → (zord ress news j).2 = predAt rs news j := by
          intro j hj
          rw [hzord j hj]
        refine ⟨by rw [hmapfst]; exact hsorted, ?_, ?_⟩
        · intro i hi
          rw [hlen] at hi
          rw [hsnd i hi, hfst i hi]
          constructor
          · intro hpos
            obtain ⟨h1, h2, h3⟩ := (predAt_spec rs news i).1 hpos
            refine ⟨h1, ?_, ?_⟩
            · rw [hfst _ (by omega)]
              exact h2
            · intro q hq1 hq2
              rw [hfst q (by omega)]
              exact h3 q hq1 hq2
          · intro hmem h1i hneg
            intro q hq
            rw [hfst q (by omega)]
            exact (predAt_spec rs news i).2 hmem h1i hneg q hq
        · intro ops hops rp hrp hrpneg op hop
          have hlenpos : 0 < rs.length := by
            rw [hrs, List.length_insertionSort, List.length_append]
            cases ress with
            | nil => exact absurd (Or.inl rfl) hg1
            | cons a t => simp
          unfold zoom_ops at hops
          rw [if_neg (by
            rw [List.isEmpty_iff]
            intro hcon
            have hcl := congrArg List.length hcon
            rw [hlen, List.length_nil] at hcl
            omega)] at hops
          rw [Option.some.injEq] at hops
          subst hops
          obtain ⟨rq, hrqmem, hopeq⟩ := List.mem_map.mp hop
          have hrqfil := List.mem_filter.mp hrqmem
          have hrqne : rq.2 ≠ -1 := by simpa using hrqfil.2
          intro heq
          have hfsteq : rq.1 = rp.1 := by rw [← hopeq] at heq; exact heq
          have hnodup : ((get_zooming_order ress news).map Prod.fst).Nodup := by
            rw [hmapfst]
            exact hsorted.imp (fun h => Nat.ne_of_lt h)
          have hrqrp := List.inj_on_of_nodup_map hnodup hrqfil.1 hrp hfsteq
          exact hrqne (by rw [hrqrp, hrpneg])

theorem zoom_order_amended_witness :
    (zord [1000] [2000] 1).1 %
      (zord [1000] [2000] ((zord [1000] [2000] 1).2).toNat).1 = 0 :=
  (((zoom_order_amended [1000] [2000]).2.1 1 (by decide)).1 (by decide)).2.1

/-- Embedding of `RawPixelIterator::new` (`res_group.rs:184-194`): `none`
models the `assert!(start < end)` panic. -/
def RawPixelIterator_new (start end_ : Nat) : Option (Nat × Nat) :=
  if start < end_ then some (start, end_) else none

/-- `ResGroup::get_raw_pixel_iter` (`res_group.rs:134-136`): iterate the whole
pixel range `[0, n_pixels)`; this is the first thing every balancing pass
(`Balancer::filter_few_nnzs` and all later pipelines) does. -/
def get_raw_pixel_iter (n_pixels : Nat) : Option (Nat × Nat) :=
  RawPixelIterator_new 0 n_pixels

/-- C9 is false as stated: on a resolution group with zero pixels the
balancing path panics instead of returning a recoverable error — the very
first chunk iterator it builds, `get_raw_pixel_iter(CHUNKSIZE)` =
`RawPixelIterator::new(reader, 0, 0, CHUNKSIZE)`, fails its
`assert!(start < end)` (modelled by `none` = panic). -/
theorem balancer_empty_pixels_counterexample :
    get_raw_pixel_iter 0 = none ∧ RawPixelIterator_new 0 0 = none := by
  decide

/-- `Balancer::zeroing_diags` (`balancer.rs:186-192`) applied to a pixel list:
the count of a pixel within `ignore_diags` of the diagonal becomes zero. -/
def zeroing_diags (ignore_diags : Nat) (px : List PixelT) : List Nat :=
  px.map (fun p =>
    if (if p.1 > p.2.1 then p.1 - p.2.1 else p.2.1 - p.1) < ignore_diags then 0 else p.2.2)

/-- `utils::bincount` (`utils.rs:74-86`) over exact rationals. -/
def bincount (length : Nat) (bins : List Nat) (weights : List ℚ) : List ℚ :=
  (bins.zip weights).foldl (fun acc bw => acc.set bw.1 (acc.getD bw.1 0 + bw.2))
    (List.replicate length 0)

/-- `Balancer::outer_product` (`balancer.rs:206-210`): scale each data value
by the two per-bin biases. -/
def outer_product (bias : List ℚ) (px : List PixelT) (data : List ℚ) : List ℚ :=
  (px.zip data).map (fun pd => pd.2 * (bias.getD pd.1.1 0 * bias.getD pd.1.2.1 0))

/-- `Balancer::marginalize` (`balancer.rs:199-204`): `bincount` over the row
bins plus `bincount` over the column bins. -/
def marginalize (n_bins : Nat) (px : List PixelT) (data : List ℚ) : List ℚ :=
  List.zipWith (· + ·) (bincount n_bins (px.map (fun p => p.1)) data)
    (bincount n_bins (px.map (fun p => p.2.1)) data)

/-- `Balancer::pipe_product` (`balancer.rs:179-184`): zero the near-diagonal
counts, apply the bias outer product, and marginalize. -/
def pipe_product (n_bins ignore : Nat) (bias : List ℚ) (px : List PixelT) : List ℚ :=
  marginalize n_bins px
    (outer_product bias px ((zeroing_diags ignore px).map (fun c => (c : ℚ))))

/-- `ndarray`'s `mean`: `none` on an empty array. -/
def mean_of (l : List ℚ) : Option ℚ :=
  if l.length = 0 then none else some (l.sum / l.length)

/-- `ndarray-stats`' `central_moment(2)`: error (`none`) on an empty array. -/
def central_moment2 (l : List ℚ) : Option ℚ :=
  if l.length = 0 then none
  else some ((l.map (fun x => (x - l.sum / l.length) ^ 2)).sum / l.length)

/-- Embedding of `Balancer::calc_mean_and_var_of_matrix` (`balancer.rs:154-165`):
compute the weighted marginals; `none` when the bin array is empty or when no
marginal is nonzero (mean of an empty selection). -/
def calc_mean_and_var_of_matrix (n_bins ignore : Nat) (bias : List ℚ) (px : List PixelT) :
    Option ((ℚ × ℚ) × List ℚ) :=
  if (pipe_product n_bins ignore bias px).isEmpty then none
  else
    (mean_of ((pipe_product n_bins ignore bias px).filter (fun x => decide (x ≠ 0)))).bind
      (fun m =>
        (central_moment2
            ((pipe_product n_bins ignore bias px).filter (fun x => decide (x ≠ 0)))).map
          (fun v => ((m, v), pipe_product n_bins ignore bias px)))

/-- The iteration loop of `Balancer::do_iterative_corrections`
(`balancer.rs:124-138`): abort with `none` when the mean/variance computation
fails, otherwise rescale the bias and stop early once the variance is below
the bound. -/
def iterate_corrections (n_bins ignore : Nat) (px : List PixelT) (var_bound : ℚ) :
    Nat → List ℚ → Option (List ℚ)
  | 0, bias => some bias
  | n + 1, bias =>
      match calc_mean_and_var_of_matrix n_bins ignore bias px with
      | none => none
      | some ((mean, var), data) =>
          let data' := data.map (fun x => if x = 0 then 1 else x / mean)
          let bias' := (bias.zip data').map (fun p => p.1 / p.2)
          if var < var_bound then some bias'
          else iterate_corrections n_bins ignore px var_bound n bias'

/-- Embedding of `Balancer::do_iterative_corrections` (`balancer.rs:123-151`):
run the loop, then the final rescaling pass `x / sqrt(scale)` (zero weights
become NaN = `none`); `f64::sqrt` is kept abstract as the parameter `sqrtQ`
since the claims never inspect the scaled values.  `none` models
"abort balancing, no weight vector produced". -/
def do_iterative_corrections (sqrtQ : ℚ → ℚ) (n_iters : Nat) (var_bound : ℚ)
    (n_bins ignore : Nat) (px : List PixelT) (bias : List ℚ) : Option (List (Option ℚ)) :=
  (iterate_corrections n_bins ignore px var_bound n_iters bias).bind (fun bias' =>
    match calc_mean_and_var_of_matrix n_bins ignore bias' px with
    | some ((scale, _), _) =>
        some (bias'.map (fun x => if x = 0 then none else some (x / sqrtQ scale)))
    | none => none)

/-- The weight-writing decision of `Matrix::balance` (`matrix.rs:64-84`):
weights are written to the store iff the balancer produced some. -/
def balance_writes_weights (result : Option (List (Option ℚ))) : Bool :=
  result.isSome

/-- C9 (amended): whenever the mean/variance computation finds no usable
nonzero marginal (all weighted marginals are zero, which covers an all-zero
or empty matrix), `do_iterative_corrections` — and hence
`balance_by_ic_genomewide`, which returns its result for any bias the earlier
filters produced — returns `None`, and `Matrix::balance` writes no weights.
The claim's blanket "never panics" is dropped: with zero pixels the pipeline
panics on `RawPixelIterator::new`'s assertion (see the counterexample). -/
theorem balancer_degenerate_returns_none (sqrtQ : ℚ → ℚ) (n_iters : Nat) (var_bound : ℚ)
    (n_bins ignore : Nat) (px : List PixelT) (bias : List ℚ)
    (hn : 0 < n_iters)
    (hdeg : ∀ x ∈ pipe_product n_bins ignore bias px, x = 0) :
    do_iterative_corrections sqrtQ n_iters var_bound n_bins ignore px bias = none ∧
    balance_writes_weights
      (do_iterative_corrections sqrtQ n_iters var_bound n_bins ignore px bias) = false := by
  have hcalc : calc_mean_and_var_of_matrix n_bins ignore bias px = none := by
    unfold calc_mean_and_var_of_matrix
    by_cases he : (pipe_product n_bins ignore bias px).isEmpty
    · rw [if_pos he]
    · rw [if_neg he]
      have hfil : (pipe_product n_bins ignore bias px).filter (fun x => decide (x ≠ 0)) = [] :=
        List.filter_eq_nil_iff.mpr (fun x hx => by simpa using hdeg x hx)
      rw [hfil]
      rfl
  cases n_iters with
  | zero => omega
  | succ n =>
      have hiter : iterate_corrections n_bins ignore px var_bound (n + 1) bias = none := by
        rw [iterate_corrections, hcalc]
      have hres : do_iterative_corrections sqrtQ (n + 1) var_bound n_bins ignore px bias
          = none := by
        unfold do_iterative_corrections
        rw [hiter]
        rfl
      exact ⟨hres, by rw [hres]; rfl⟩

theorem balancer_degenerate_returns_none_witness :
    do_iterative_corrections (fun x => x) 1 0 1 3 [] [1] = none ∧
    balance_writes_weights (do_iterative_corrections (fun x => x) 1 0 1 3 [] [1]) = false :=
  balancer_degenerate_returns_none (fun x => x) 1 0 1 3 [] [1] (by decide)
    (by simp [pipe_product, marginalize, bincount, outer_product, zeroing_diags])

/-! ### C10: ResGroup balanced accessors (`res_group.rs`) -/

/-- A resolution group whose selector has been initialized
(`ResGroup` of `res_group.rs` after `init_selector`): the bin count, the
pixel store behind the selector and the per-bin weights (`none` = NaN). -/
structure ResGroupM where
  n_bins : Nat
  store : Store
  biases : List (Option ℚ)

/-- The balanced value of one stored entry, as computed inside
`Selector2D::get_balanced_submatrix`: `count * w[b1] * w[b2]`. -/
def balVal (g : ResGroupM) (e : PixelT) : Option ℚ :=
  fmul (fmul (some ((e.2.2 : Nat) : ℚ)) (g.biases.getD e.1 none)) (g.biases.getD e.2.1 none)

/-- The ordering used by `res.sort_by_key(|x| x.0)` in
`get_balanced_row_as_nnz_elems`: compare `(col, value)` pairs by column id. -/
def colLe (a b : Nat × Option ℚ) : Prop := a.1 ≤ b.1

instance : DecidableRel colLe := fun a b => Nat.decLe a.1 b.1

instance : IsTotal (Nat × Option ℚ) colLe := ⟨fun a b => Nat.le_total a.1 b.1⟩

instance : IsTrans (Nat × Option ℚ) colLe := ⟨fun _ _ _ => Nat.le_trans⟩

/-- Embedding of `ResGroup::get_balanced_row_as_nnz_elems`
(`res_group.rs:92-105`): guard `row_id >= n_bins` (`MatrixIndexError`,
modelled `none`; the `SelectorUninitError` branch does not arise since the
model carries an initialized selector), query the single-row window
`(row_id, row_id+1) x (0, n_bins)`, keep the finite values
(`v.is_finite()` = the `Option ℚ` being `some`) and stable-sort by column. -/
def get_balanced_row_as_nnz_elems (g : ResGroupM) (row_id : Nat) :
    Option (List (Nat × Option ℚ)) :=
  if row_id ≥ g.n_bins then none
  else
    (get_balanced_submatrix g.store g.biases row_id (row_id + 1) 0 g.n_bins).map
      (fun t => List.insertionSort colLe ((t.2.1.zip t.2.2).filter (fun p => p.2.isSome)))

/-- One iteration of the dense-write loop of `get_balanced_submatrix_as_array`
(`res_group.rs:71-74`): write `v` at `(b1-i0, b2-j0)` when the balanced value
is finite, leave the matrix unchanged when it is NaN. -/
def denseStep (i0 j0 : Nat) (mat : List (List ℚ)) (e : Nat × Nat × Option ℚ) :
    List (List ℚ) :=
  match e with
  | (b1, b2, some v) => mat.set (b1 - i0) ((mat.getD (b1 - i0) []).set (b2 - j0) v)
  | (_, _, none) => mat

/-- Embedding of `ResGroup::get_balanced_submatrix_as_array`
(`res_group.rs:58-77`): the index guard of lines 60-63 (`MatrixIndexError`,
modelled `none`), a zero-initialized `(i1-i0) x (j1-j0)` matrix, then one
in-place write per finite balanced entry. -/
def get_balanced_submatrix_as_array (g : ResGroupM) (i0 i1 j0 j1 : Nat) :
    Option (List (List ℚ)) :=
  if i0 ≥ i1 ∨ j0 ≥ j1 ∨ i1 > g.n_bins ∨ j1 > g.n_bins ∨ i0 ≥ g.n_bins ∨ j0 ≥ g.n_bins then
    none
  else
    (get_balanced_submatrix g.store g.biases i0 i1 j0 j1).map (fun t =>
      (t.1.zip (t.2.1.zip t.2.2)).foldl (denseStep i0 j0)
        (List.replicate (i1 - i0) (List.replicate (j1 - j0) (0 : ℚ))))

/-- A `some` product forces both factors `some`: a NaN bias makes the
balanced value NaN. -/
theorem fmul_isSome {a b : Option ℚ} (h : (fmul a b).isSome = true) :
    a.isSome = true ∧ b.isSome = true := by
  cases a <;> cases b <;> simp [fmul] at h ⊢

/-- Projections of the zipped entry list recover the three parallel vectors
when their lengths agree. -/
theorem entries_proj :
    ∀ (as_ bs cs : List Nat), as_.length = bs.length → bs.length = cs.length →
      (as_.zip (bs.zip cs)).map (fun e => e.1) = as_ ∧
      (as_.zip (bs.zip cs)).map (fun e => e.2.1) = bs ∧
      (as_.zip (bs.zip cs)).map (fun e => e.2.2) = cs := by
  intro as_
  induction as_ with
  | nil =>
      intro bs cs h1 h2
      cases bs with
      | nil =>
          cases cs with
          | nil => simp
          | cons c ct => simp at h2
      | cons b bt => simp at h1
  | cons a at_ ih =>
      intro bs cs h1 h2
      cases bs with
      | nil => simp at h1
      | cons b bt =>
          cases cs with
          | nil => simp at h2
          | cons c ct =>
              simp only [List.length_cons, add_left_inj] at h1 h2
              obtain ⟨q1, q2, q3⟩ := ih bt ct h1 h2
              simp [q1, q2, q3]

/-- `getD` after an in-range `set` at the same index returns the new value. -/
theorem getD_set_self_any {α : Type} {l : List α} {i : Nat} (h : i < l.length) (a d : α) :
    (l.set i a).getD i d = a := by
  rw [List.getD_eq_getElem?_getD, List.getElem?_set_self h]
  rfl

/-- `getD` at a different index is unchanged by `set`. -/
theorem getD_set_ne_any {α : Type} {l : List α} {i j : Nat} (h : i ≠ j) (a d : α) :
    (l.set i a).getD j d = l.getD j d := by
  rw [List.getD_eq_getElem?_getD, List.getElem?_set_ne h, ← List.getD_eq_getElem?_getD]

/-- Every cell of the zero-initialized dense matrix reads `0`, in or out of
range. -/
theorem dense_init_zero (n m k j : Nat) :
    ((List.replicate n (List.replicate m (0 : ℚ))).getD k []).getD j 0 = 0 := by
  have hrow : (List.replicate n (List.replicate m (0 : ℚ))).getD k [] = [] ∨
      (List.replicate n (List.replicate m (0 : ℚ))).getD k [] = List.replicate m 0 := by
    rw [List.getD_eq_getElem?_getD, List.getElem?_replicate]
    split_ifs
    · exact Or.inr rfl
    · exact Or.inl rfl
  rcases hrow with hrow | hrow
  · rw [hrow]
    rfl
  · rw [hrow, List.getD_eq_getElem?_getD, List.getElem?_replicate]
    split_ifs <;> rfl

/-- The dense-write loop never touches a cell that no finite entry maps to:
if every finite entry writes somewhere other than `(r-i0, c-j0)`, that cell
keeps its incoming value `0`. -/
theorem dense_fold_zero (i0 j0 r c : Nat) :
    ∀ (es : List (Nat × Nat × Option ℚ)) (mat : List (List ℚ)),
      (∀ e ∈ es, e.2.2.isSome = true → e.1 - i0 ≠ r - i0 ∨ e.2.1 - j0 ≠ c - j0) →
      (mat.getD (r - i0) []).getD (c - j0) 0 = 0 →
      ((es.foldl (denseStep i0 j0) mat).getD (r - i0) []).getD (c - j0) 0 = 0 := by
  intro es
  induction es with
  | nil => intro mat _ h0; exact h0
  | cons e rest ih =>
      intro mat hno h0
      rw [List.foldl_cons]
      refine ih _ (fun e' he' hs => hno e' (List.mem_cons_of_mem _ he') hs) ?_
      obtain ⟨b1, b2, ov⟩ := e
      cases ov with
      | none => simpa only [denseStep] using h0
      | some v =>
          have hne := hno (b1, b2, some v) (List.mem_cons_self _ _) rfl
          simp only [denseStep]
          by_cases hout : b1 - i0 = r - i0
          · rcases hne with hne | hne
            · exact absurd hout hne
            · rw [hout]
              by_cases hlen : r - i0 < mat.length
              · rw [getD_set_self_any hlen, getD_set_ne_any hne]
                exact h0
              · rw [List.set_eq_of_length_le (Nat.le_of_not_lt hlen)]
                exact h0
          · rw [getD_set_ne_any hout]
            exact h0

/-- Characterization of a successful `get_balanced_row_as_nnz_elems` call:
the guard passed and the result is the sorted, `some`-filtered zip of the
column and balanced-value vectors of the single-row window. -/
theorem row_nnz_char (g : ResGroupM) (row_id : Nat) (l : List (Nat × Option ℚ))
    (h : get_balanced_row_as_nnz_elems g row_id = some l) :
    row_id < g.n_bins ∧
    ∃ is js cnts,
      get_rectangle g.store row_id (row_id + 1) 0 g.n_bins = some (is, js, cnts) ∧
      l = List.insertionSort colLe
        ((js.zip ((is.zip (js.zip cnts)).map (balVal g))).filter (fun p => p.2.isSome)) := by
  rw [get_balanced_row_as_nnz_elems] at h
  split_ifs at h with hge
  rw [Option.map_eq_some'] at h
  obtain ⟨t, ht, rfl⟩ := h
  rw [get_balanced_submatrix, Option.map_eq_some'] at ht
  obtain ⟨u, hu, htt⟩ := ht
  obtain ⟨is, js, cnts⟩ := u
  subst htt
  exact ⟨by omega, is, js, cnts, hu, rfl⟩

/-- Characterization of a successful `get_balanced_submatrix_as_array` call:
the dense matrix is the fold of `denseStep` over the balanced entries,
starting from the zero matrix. -/
theorem dense_array_char (g : ResGroupM) (i0 i1 j0 j1 : Nat) (M : List (List ℚ))
    (h : get_balanced_submatrix_as_array g i0 i1 j0 j1 = some M) :
    ∃ is js cnts,
      get_rectangle g.store i0 i1 j0 j1 = some (is, js, cnts) ∧
      M = (is.zip (js.zip ((is.zip (js.zip cnts)).map (balVal g)))).foldl (denseStep i0 j0)
            (List.replicate (i1 - i0) (List.replicate (j1 - j0) (0 : ℚ))) := by
  rw [get_balanced_submatrix_as_array] at h
  split_ifs at h with hguard
  rw [Option.map_eq_some'] at h
  obtain ⟨t, ht, hM⟩ := h
  rw [get_balanced_submatrix, Option.map_eq_some'] at ht
  obtain ⟨u, hu, htt⟩ := ht
  obtain ⟨is, js, cnts⟩ := u
  subst htt
  subst hM
  exact ⟨is, js, cnts, hu, rfl⟩

/-- C10: for a resolution group with initialized selector,
`get_balanced_row_as_nnz_elems` returns only entries whose balanced value is
finite (`some`) — in particular both the queried row's weight and the entry's
column weight are non-NaN, so entries involving a NaN-weight bin are omitted —
and the result is sorted ascending by column id; and
`get_balanced_submatrix_as_array` writes only finite values into the dense
zero-initialized result, so every in-window cell whose row or column weight is
NaN stays `0`. -/
theorem balanced_accessors_finite_sorted (g : ResGroupM) :
    (∀ row_id l, get_balanced_row_as_nnz_elems g row_id = some l →
      (∀ e ∈ l, e.2.isSome = true ∧
        (g.biases.getD e.1 none).isSome = true ∧
        (g.biases.getD row_id none).isSome = true) ∧
      l.Pairwise (fun a b => a.1 ≤ b.1)) ∧
    (∀ i0 i1 j0 j1 M, get_balanced_submatrix_as_array g i0 i1 j0 j1 = some M →
      ∀ r c, i0 ≤ r → r < i1 → j0 ≤ c → c < j1 →
        (g.biases.getD r none = none ∨ g.biases.getD c none = none) →
        (M.getD (r - i0) []).getD (c - j0) 0 = 0) := by
  constructor
  · intro row_id l h
    obtain ⟨hlt, is, js, cnts, hu, hl⟩ := row_nnz_char g row_id l h
    obtain ⟨hrow, hcol, hl1, hl2⟩ := rect_bounds hu
    simp only at hrow hcol hl1 hl2
    obtain ⟨hp1, hp2, hp3⟩ := entries_proj is js cnts hl1 hl2
    have hzip : js.zip ((is.zip (js.zip cnts)).map (balVal g)) =
        (is.zip (js.zip cnts)).map (fun e => (e.2.1, balVal g e)) := by
      have key : ∀ (es : List PixelT), es.map (fun e => e.2.1) = js →
          js.zip (es.map (balVal g)) = es.map (fun e => (e.2.1, balVal g e)) := by
        intro es hes
        rw [← hes, List.zip_map']
      exact key _ hp2
    constructor
    · intro e he
      rw [hl] at he
      have he2 := (List.perm_insertionSort colLe _).subset he
      obtain ⟨hemem, hsome⟩ := List.mem_filter.mp he2
      rw [hzip] at hemem
      obtain ⟨e0, he0, heq⟩ := List.mem_map.mp hemem
      obtain ⟨a, b, v⟩ := e0
      subst heq
      dsimp only at hsome ⊢
      obtain ⟨hmul1, hwb⟩ := fmul_isSome hsome
      obtain ⟨-, hwa⟩ := fmul_isSome hmul1
      obtain ⟨ha, hbv⟩ := List.of_mem_zip he0
      have hab := hrow a ha
      have haeq : a = row_id := by omega
      subst haeq
      exact ⟨hsome, hwb, hwa⟩
    · rw [hl]
      have hs := List.sorted_insertionSort colLe
        ((js.zip ((is.zip (js.zip cnts)).map (balVal g))).filter (fun p => p.2.isSome))
      exact hs
  · intro i0 i1 j0 j1 M h r c hr0 hr1 hc0 hc1 hnan
    obtain ⟨is, js, cnts, hu, hM⟩ := dense_array_char g i0 i1 j0 j1 M h
    obtain ⟨hrow, hcol, hl1, hl2⟩ := rect_bounds hu
    simp only at hrow hcol hl1 hl2
    obtain ⟨hp1, hp2, hp3⟩ := entries_proj is js cnts hl1 hl2
    have hzip : is.zip (js.zip ((is.zip (js.zip cnts)).map (balVal g))) =
        (is.zip (js.zip cnts)).map (fun e => (e.1, e.2.1, balVal g e)) := by
      have key : ∀ (es : List PixelT), es.map (fun e => e.1) = is →
          es.map (fun e => e.2.1) = js →
          is.zip (js.zip (es.map (balVal g))) =
            es.map (fun e => (e.1, e.2.1, balVal g e)) := by
        intro es h1 h2
        rw [← h1, ← h2, List.zip_map', List.zip_map']
      exact key _ hp1 hp2
    rw [hM, hzip]
    refine dense_fold_zero i0 j0 r c _ _ ?_ (dense_init_zero _ _ _ _)
    intro e' he' hs
    obtain ⟨e0, he0, heq⟩ := List.mem_map.mp he'
    obtain ⟨a, b, v⟩ := e0
    subst heq
    dsimp only at hs ⊢
    obtain ⟨hmul1, hwb⟩ := fmul_isSome hs
    obtain ⟨-, hwa⟩ := fmul_isSome hmul1
    obtain ⟨ha, hbv⟩ := List.of_mem_zip he0
    obtain ⟨hb, -⟩ := List.of_mem_zip hbv
    have hab := hrow a ha
    have hbb := hcol b hb
    by_contra hcon
    push_neg at hcon
    obtain ⟨h1, h2⟩ := hcon
    have haeq : a = r := by omega
    have hbeq : b = c := by omega
    subst haeq
    subst hbeq
    rcases hnan with hn | hn
    · rw [hn] at hwa
      exact absurd hwa (by simp)
    · rw [hn] at hwb
      exact absurd hwb (by simp)

/-- A concrete resolution group over the witness store with both bin weights
NaN. -/
def rg0 : ResGroupM := ⟨2, st0, [none, none]⟩

theorem balanced_accessors_finite_sorted_witness :
    get_balanced_row_as_nnz_elems rg0 0 = some [] ∧
    List.Pairwise (fun a b : Nat × Option ℚ => a.1 ≤ b.1) ([] : List (Nat × Option ℚ)) :=
  ⟨by decide, ((balanced_accessors_finite_sorted rg0).1 0 [] (by decide)).2⟩
